import Mathlib

/-!
Shallow embedding of the `tinygif` GIF decoder (src/lib.rs, src/parser.rs,
src/bitstream.rs, src/lzw.rs) and proofs about it.

Conventions of the embedding:
* Machine bytes (`u8`) are `Nat` values; where a Rust cast truncates we write
  the corresponding `% 256` / `% 65536` explicitly.
* A Rust function returning `Result<T, ParseError>` that can additionally
  panic (via `unwrap`, slice indexing, `unimplemented!`, `unreachable!` or an
  `assert!`) is embedded as `Except Fail T`, where `Fail.err e` is the `Err e`
  return value and `Fail.panicked` is a trap.
* Rust `while`/`loop` constructs are embedded as structurally recursive
  functions with an explicit fuel argument; each public wrapper passes a fuel
  that provably exceeds the number of iterations the Rust loop can perform,
  so the fuel-exhaustion branch is unreachable on those calls.
-/

set_option maxHeartbeats 1000000
set_option maxRecDepth 8000

namespace Tinygif

/-- The `ParseError` enum from src/lib.rs. -/
inductive ParseError where
  | unsupportedBpp (n : Nat)
  | unexpectedEndOfFile
  | invalidFileSignature (magic : List Nat)
  | unsupportedCompressionMethod (n : Nat)
  | unsupportedHeaderLength (n : Nat)
  | unsupportedChannelMasks
  | invalidImageDimensions
  | invalidByte
  | junkAfterTrailerByte
deriving DecidableEq, Repr

/-- Outcome of running a fallible piece of Rust code: either a returned
`Err` value (`err`) or a panic/trap (`panicked`). -/
inductive Fail where
  | err (e : ParseError)
  | panicked
deriving DecidableEq, Repr

instance {e a : Type} [DecidableEq e] [DecidableEq a] : DecidableEq (Except e a) := fun x y =>
  match x, y with
  | .error u, .error v =>
    if h : u = v then .isTrue (by rw [h]) else .isFalse (fun hh => h (by cases hh; rfl))
  | .error _, .ok _ => .isFalse (fun hh => Except.noConfusion hh)
  | .ok _, .error _ => .isFalse (fun hh => Except.noConfusion hh)
  | .ok u, .ok v =>
    if h : u = v then .isTrue (by rw [h]) else .isFalse (fun hh => h (by cases hh; rfl))

/-! ## Byte parser primitives (src/parser.rs) -/

/-- `take1` from src/parser.rs: reads a single byte. -/
def take1 (input : List Nat) : Except Fail (List Nat × Nat) :=
  match input with
  | [] => .error (.err .unexpectedEndOfFile)
  | b :: rest => .ok (rest, b)

/-- `take::<N>` from src/parser.rs: reads a fixed number of bytes. -/
def take (n : Nat) (input : List Nat) : Except Fail (List Nat × List Nat) :=
  if n ≤ input.length then .ok (input.drop n, input.take n)
  else .error (.err .unexpectedEndOfFile)

/-- `take_slice` from src/parser.rs: borrows `length` bytes. -/
def take_slice (input : List Nat) (length : Nat) : Except Fail (List Nat × List Nat) :=
  if length ≤ input.length then .ok (input.drop length, input.take length)
  else .error (.err .unexpectedEndOfFile)

/-- `le_u16` from src/parser.rs: two bytes, little endian. -/
def le_u16 (input : List Nat) : Except Fail (List Nat × Nat) :=
  match take 2 input with
  | .error e => .error e
  | .ok (rest, bytes) =>
    match bytes with
    | [b0, b1] => .ok (rest, b0 + 256 * b1)
    | _ => .error .panicked

theorem take1_length {input rest : List Nat} {b : Nat}
    (h : take1 input = .ok (rest, b)) : rest.length < input.length := by
  cases input with
  | nil => simp [take1] at h
  | cons x xs =>
    simp only [take1, Except.ok.injEq, Prod.mk.injEq] at h
    obtain ⟨h1, _⟩ := h
    subst h1
    simp

theorem take_length {n : Nat} {input rest v : List Nat}
    (h : take n input = .ok (rest, v)) : rest.length + n = input.length := by
  unfold take at h
  split at h
  · simp only [Except.ok.injEq, Prod.mk.injEq] at h
    obtain ⟨h1, _⟩ := h
    subst h1
    simp
    omega
  · exact absurd h (by simp)

theorem take_slice_length {input rest v : List Nat} {n : Nat}
    (h : take_slice input n = .ok (rest, v)) : rest.length + n = input.length := by
  unfold take_slice at h
  split at h
  · simp only [Except.ok.injEq, Prod.mk.injEq] at h
    obtain ⟨h1, _⟩ := h
    subst h1
    simp
    omega
  · exact absurd h (by simp)

theorem le_u16_length {input rest : List Nat} {v : Nat}
    (h : le_u16 input = .ok (rest, v)) : rest.length + 2 = input.length := by
  unfold le_u16 at h
  split at h
  · exact absurd h (by simp)
  · rename_i heq
    split at h
    · simp only [Except.ok.injEq, Prod.mk.injEq] at h
      obtain ⟨h1, _⟩ := h
      subst h1
      exact take_length heq
    · exact absurd h (by simp)

/-! ## Bit stream (src/bitstream.rs) -/

/-- `BitStream` from src/bitstream.rs.  `r` is the remaining underlying byte
iterator, `byte` the current byte and `bit_cursor` the next unread bit
position (LSB first), `8` meaning "fetch a new byte". -/
structure BitStream where
  r : List Nat
  byte : Nat
  bit_cursor : Nat
deriving DecidableEq, Repr

/-- `BitStream::new`. -/
def BitStream.new (r : List Nat) : BitStream :=
  { r := r, byte := 0, bit_cursor := 8 }

/-- Result of the byte-fetch `while` loop inside `next_bits`:
either the loop finished with updated state, or a fetch underflowed
(Rust: the `?` returned `None`), recording the last fetched byte. -/
inductive NbLoopRes where
  | done (r : List Nat) (byte res bits : Nat)
  | underflow (byte : Nat)
deriving DecidableEq, Repr

/-- The `while bits_fullfilled < nbit` loop of `BitStream::next_bits`.
`fuel = 3` always suffices: `nbit < 16` and each iteration adds 8 bits,
so at most two iterations run. -/
def nbLoop (fuel : Nat) (r : List Nat) (byte res bits nbit : Nat) : NbLoopRes :=
  match fuel with
  | 0 => .underflow byte
  | fuel + 1 =>
    if bits < nbit then
      match r with
      | [] => .underflow byte
      | b :: rest => nbLoop fuel rest b (res ||| ((b <<< bits) % 65536)) (bits + 8) nbit
    else .done r byte res bits

/-- Body of `BitStream::next_bits` after the initial byte fetch has been
performed (`bit_cursor ≤ 7` here whenever reachable).  Mirrors
src/bitstream.rs lines 30-46; the trailing `assert!(self.bit_cursor <= 8)`
is the `.panicked` branch. -/
def next_bits_go (r : List Nat) (byte bit_cursor nbit : Nat) :
    Except Fail (Option Nat × BitStream) :=
  let res := byte >>> bit_cursor
  let bits_fullfilled := 8 - bit_cursor
  if nbit ≤ bits_fullfilled then
    .ok (some (res &&& ((1 <<< nbit) - 1)),
         { r := r, byte := byte, bit_cursor := bit_cursor + nbit })
  else
    match nbLoop 3 r byte res bits_fullfilled nbit with
    | .underflow byte' => .ok (none, { r := [], byte := byte', bit_cursor := bit_cursor })
    | .done r' byte' res' bits' =>
      if nbit - (bits' - 8) ≤ 8 then
        .ok (some (res' &&& ((1 <<< nbit) - 1)),
             { r := r', byte := byte', bit_cursor := nbit - (bits' - 8) })
      else .error .panicked

/-- `BitStream::next_bits` from src/bitstream.rs.  `nbit ≥ 16` is the
`panic!("nbit must be < 16")` branch.  Returning `.ok (none, _)` models the
Rust `None` (end of stream); the returned stream is the partially advanced
state. -/
def BitStream.next_bits (bs : BitStream) (nbit : Nat) :
    Except Fail (Option Nat × BitStream) :=
  if 16 ≤ nbit then .error .panicked
  else if bs.bit_cursor = 8 then
    match bs.r with
    | [] => .ok (none, bs)
    | b :: rest => next_bits_go rest b 0 nbit
  else next_bits_go bs.r bs.byte bs.bit_cursor nbit

/-! Specification-level view of a bit stream (used to state what
"the next `n` bits, LSB first" means). -/

/-- Value of a byte list read little-endian, first byte = least significant. -/
def bytesToNat : List Nat → Nat
  | [] => 0
  | b :: rest => b + 256 * bytesToNat rest

/-- Number of unread bits in the stream. -/
def BitStream.avail (bs : BitStream) : Nat :=
  (8 - bs.bit_cursor) + 8 * bs.r.length

/-- The whole remaining stream as one natural number, LSB = next bit. -/
def BitStream.toNat (bs : BitStream) : Nat :=
  (bs.byte >>> bs.bit_cursor) + 2 ^ (8 - bs.bit_cursor) * bytesToNat bs.r

/-- Well-formedness: the state a `BitStream` over `u8` bytes can actually be in. -/
def BitStream.WF (bs : BitStream) : Prop :=
  bs.byte < 256 ∧ bs.bit_cursor ≤ 8 ∧ ∀ b ∈ bs.r, b < 256

instance (bs : BitStream) : Decidable bs.WF := by
  unfold BitStream.WF
  infer_instance

/-! Arithmetic helper lemmas for the bit-stream proofs. -/

theorem lor_mul_two_pow_eq_add {a b k : Nat} (ha : a < 2 ^ k) :
    a ||| (b * 2 ^ k) = a + b * 2 ^ k := by
  apply Nat.eq_of_testBit_eq
  intro j
  have h2 : b * 2 ^ k = 2 ^ k * b := Nat.mul_comm _ _
  rw [Nat.testBit_or, h2, Nat.testBit_mul_pow_two]
  have hcomm : a + 2 ^ k * b = 2 ^ k * b + a := by ring
  rw [hcomm, Nat.testBit_mul_pow_two_add b ha j]
  by_cases hj : j < k
  · have : ¬ (j ≥ k) := by omega
    simp [hj, this]
  · have hge : j ≥ k := by omega
    have hfa : a.testBit j = false :=
      Nat.testBit_lt_two_pow (lt_of_lt_of_le ha (Nat.pow_le_pow_right (by norm_num) hge))
    simp [hj, hge, hfa]

theorem and_mask_eq_mod (x n : Nat) : x &&& ((1 <<< n) - 1) = x % 2 ^ n := by
  rw [Nat.one_shiftLeft, Nat.and_pow_two_sub_one_eq_mod]

theorem shiftRight_lt {b k m : Nat} (h : b < 2 ^ (k + m)) : b >>> k < 2 ^ m := by
  rw [Nat.shiftRight_eq_div_pow]
  have : 2 ^ (k + m) = 2 ^ k * 2 ^ m := by rw [Nat.pow_add]
  rw [this] at h
  exact Nat.div_lt_of_lt_mul (by omega)

theorem add_pow_mod_eq {a v n k : Nat} (h : n ≤ k) :
    (a + 2 ^ k * v) % 2 ^ n = a % 2 ^ n := by
  have : 2 ^ k * v = 2 ^ n * (2 ^ (k - n) * v) := by
    rw [← Nat.mul_assoc, ← Nat.pow_add]
    congr 2
    omega
  rw [this, Nat.mul_comm (2 ^ n), Nat.add_mul_mod_self_right]

theorem add_pow_div_eq {a v n k : Nat} (h : n ≤ k) :
    (a + 2 ^ k * v) / 2 ^ n = a / 2 ^ n + 2 ^ (k - n) * v := by
  have : 2 ^ k * v = 2 ^ n * (2 ^ (k - n) * v) := by
    rw [← Nat.mul_assoc, ← Nat.pow_add]
    congr 2
    omega
  rw [this, Nat.mul_comm (2 ^ n), Nat.add_mul_div_right _ _ (Nat.two_pow_pos n)]


theorem next_bits_go_spec (r : List Nat) (byte cursor n : Nat)
    (hb : byte < 256) (hc : cursor ≤ 7) (hr : ∀ x ∈ r, x < 256)
    (h1 : 1 ≤ n) (h15 : n ≤ 15) :
    (n ≤ (8 - cursor) + 8 * r.length →
      ∃ bs' : BitStream,
        next_bits_go r byte cursor n =
          .ok (some (((byte >>> cursor) + 2 ^ (8 - cursor) * bytesToNat r) % 2 ^ n), bs') ∧
        bs'.WF ∧
        bs'.toNat = ((byte >>> cursor) + 2 ^ (8 - cursor) * bytesToNat r) / 2 ^ n ∧
        bs'.avail = ((8 - cursor) + 8 * r.length) - n) ∧
    ((8 - cursor) + 8 * r.length < n →
      ∃ bs', next_bits_go r byte cursor n = .ok (none, bs')) := by
  have hbits1 : 1 ≤ 8 - cursor := by omega
  have hbits8 : 8 - cursor ≤ 8 := by omega
  have ha : byte >>> cursor < 2 ^ (8 - cursor) := by
    apply shiftRight_lt
    have h8 : cursor + (8 - cursor) = 8 := by omega
    rw [h8]
    exact hb
  by_cases hcase : n ≤ 8 - cursor
  · -- the request is served from the current byte, no fetch
    refine ⟨fun _ => ⟨⟨r, byte, cursor + n⟩, ?_,
        ⟨hb, by show cursor + n ≤ 8; omega, hr⟩, ?_, ?_⟩, fun hlt => by omega⟩
    · simp only [next_bits_go]
      rw [if_pos hcase, and_mask_eq_mod, add_pow_mod_eq hcase]
    · show (byte >>> (cursor + n)) + 2 ^ (8 - (cursor + n)) * bytesToNat r = _
      rw [add_pow_div_eq hcase, Nat.shiftRight_add, Nat.shiftRight_eq_div_pow (byte >>> cursor) n]
      have hexp : 8 - (cursor + n) = 8 - cursor - n := by omega
      rw [hexp]
    · show (8 - (cursor + n)) + 8 * r.length = _
      omega
  · have hbn : 8 - cursor < n := by omega
    cases r with
    | nil =>
      refine ⟨fun hle => by simp at hle; omega, fun _ => ⟨⟨[], byte, cursor⟩, ?_⟩⟩
      simp only [next_bits_go, nbLoop, if_neg hcase, if_pos hbn]
    | cons b₁ rest =>
      have hb₁ : b₁ < 256 := hr b₁ (by simp)
      have hrest : ∀ x ∈ rest, x < 256 := fun x hx => hr x (by simp [hx])
      have e1 : (b₁ <<< (8 - cursor)) % 65536 = b₁ * 2 ^ (8 - cursor) := by
        rw [Nat.shiftLeft_eq]
        apply Nat.mod_eq_of_lt
        calc b₁ * 2 ^ (8 - cursor) < 256 * 2 ^ (8 - cursor) :=
              (Nat.mul_lt_mul_right (Nat.two_pow_pos _)).mpr hb₁
          _ ≤ 256 * 2 ^ 8 :=
              Nat.mul_le_mul_left _ (Nat.pow_le_pow_right (by norm_num) hbits8)
          _ = 65536 := by norm_num
      have hres₁ : (byte >>> cursor) ||| ((b₁ <<< (8 - cursor)) % 65536)
          = byte >>> cursor + b₁ * 2 ^ (8 - cursor) := by
        rw [e1, lor_mul_two_pow_eq_add ha]
      have e8 : (2 : Nat) ^ (8 - cursor + 8) = 2 ^ (8 - cursor) * 256 := by
        rw [pow_add]
        norm_num
      by_cases hcase2 : n ≤ (8 - cursor) + 8
      · -- exactly one additional byte is fetched
        have hrun : next_bits_go (b₁ :: rest) byte cursor n =
            .ok (some ((byte >>> cursor + b₁ * 2 ^ (8 - cursor)) &&& ((1 <<< n) - 1)),
                 ⟨rest, b₁, n - (8 - cursor)⟩) := by
          have hc2 : ¬ ((8 - cursor) + 8 < n) := by omega
          simp only [next_bits_go, nbLoop, if_neg hcase, if_pos hbn, hres₁, if_neg hc2]
          rw [show (8 - cursor + 8 - 8 : Nat) = 8 - cursor from by omega,
              if_pos (show n - (8 - cursor) ≤ 8 from by omega)]
        have hsplit : (byte >>> cursor) + 2 ^ (8 - cursor) * bytesToNat (b₁ :: rest)
            = (byte >>> cursor + b₁ * 2 ^ (8 - cursor)) + 2 ^ (8 - cursor + 8) * bytesToNat rest := by
          show _ + 2 ^ (8 - cursor) * (b₁ + 256 * bytesToNat rest) = _
          rw [e8]
          ring_nf
        refine ⟨fun _ => ⟨⟨rest, b₁, n - (8 - cursor)⟩, ?_,
            ⟨hb₁, by show n - (8 - cursor) ≤ 8; omega, hrest⟩, ?_, ?_⟩,
            fun hlt => by simp at hlt; omega⟩
        · rw [hrun, hsplit, and_mask_eq_mod, add_pow_mod_eq hcase2]
        · show (b₁ >>> (n - (8 - cursor))) + 2 ^ (8 - (n - (8 - cursor))) * bytesToNat rest = _
          rw [hsplit, add_pow_div_eq hcase2]
          have hq : (byte >>> cursor + b₁ * 2 ^ (8 - cursor)) / 2 ^ n = b₁ >>> (n - (8 - cursor)) := by
            have h2n : (2 : Nat) ^ n = 2 ^ (8 - cursor) * 2 ^ (n - (8 - cursor)) := by
              rw [← pow_add]
              congr 1
              omega
            rw [h2n, ← Nat.div_div_eq_div_mul]
            have hfirst : (byte >>> cursor + b₁ * 2 ^ (8 - cursor)) / 2 ^ (8 - cursor) = b₁ := by
              have hshape : byte >>> cursor + b₁ * 2 ^ (8 - cursor)
                  = byte >>> cursor + 2 ^ (8 - cursor) * b₁ := by ring
              rw [hshape, Nat.add_mul_div_left _ _ (Nat.two_pow_pos _),
                  Nat.div_eq_of_lt ha, Nat.zero_add]
            rw [hfirst, Nat.shiftRight_eq_div_pow]
          rw [hq]
          have hexp : 8 - (n - (8 - cursor)) = 8 - cursor + 8 - n := by omega
          rw [hexp]
        · show (8 - (n - (8 - cursor))) + 8 * rest.length = _
          simp only [List.length_cons]
          omega
      · -- two additional bytes would be needed
        have hbn2 : (8 - cursor) + 8 < n := by omega
        cases rest with
        | nil =>
          refine ⟨fun hle => by simp at hle; omega, fun _ => ⟨⟨[], b₁, cursor⟩, ?_⟩⟩
          simp only [next_bits_go, nbLoop, if_neg hcase, if_pos hbn, hres₁, if_pos hbn2]
        | cons b₂ rest₂ =>
          have hb₂ : b₂ < 256 := hrest b₂ (by simp)
          have hrest₂ : ∀ x ∈ rest₂, x < 256 := fun x hx => hrest x (by simp [hx])
          have hres₁lt : byte >>> cursor + b₁ * 2 ^ (8 - cursor) < 2 ^ (8 - cursor + 8) := by
            have hp : 0 < 2 ^ (8 - cursor) := Nat.two_pow_pos _
            calc byte >>> cursor + b₁ * 2 ^ (8 - cursor)
                < 2 ^ (8 - cursor) + b₁ * 2 ^ (8 - cursor) := by omega
              _ = (b₁ + 1) * 2 ^ (8 - cursor) := by ring
              _ ≤ 256 * 2 ^ (8 - cursor) := Nat.mul_le_mul_right _ (by omega)
              _ = 2 ^ (8 - cursor + 8) := by rw [e8, Nat.mul_comm]
          have e2 : (b₂ <<< (8 - cursor + 8)) % 65536
              = (b₂ % 2 ^ (8 - (8 - cursor))) * 2 ^ (8 - cursor + 8) := by
            rw [Nat.shiftLeft_eq]
            have h16 : (65536 : Nat) = 2 ^ (8 - cursor + 8) * 2 ^ (8 - (8 - cursor)) := by
              rw [← pow_add]
              have he : 8 - cursor + 8 + (8 - (8 - cursor)) = 16 := by omega
              rw [he]
              norm_num
            rw [h16, Nat.mul_comm b₂ (2 ^ (8 - cursor + 8)), Nat.mul_mod_mul_left,
                Nat.mul_comm (2 ^ (8 - cursor + 8))]
          have hres₂ : (byte >>> cursor + b₁ * 2 ^ (8 - cursor)) ||| ((b₂ <<< (8 - cursor + 8)) % 65536)
              = byte >>> cursor + b₁ * 2 ^ (8 - cursor)
                + (b₂ % 2 ^ (8 - (8 - cursor))) * 2 ^ (8 - cursor + 8) := by
            rw [e2, lor_mul_two_pow_eq_add hres₁lt]
          have hrun : next_bits_go (b₁ :: b₂ :: rest₂) byte cursor n =
              .ok (some ((byte >>> cursor + b₁ * 2 ^ (8 - cursor)
                      + (b₂ % 2 ^ (8 - (8 - cursor))) * 2 ^ (8 - cursor + 8)) &&& ((1 <<< n) - 1)),
                   ⟨rest₂, b₂, n - (8 - cursor + 8)⟩) := by
            have hc3 : ¬ ((8 - cursor) + 8 + 8 < n) := by omega
            simp only [next_bits_go, nbLoop, if_neg hcase, if_pos hbn, hres₁, if_pos hbn2,
              hres₂, if_neg hc3]
            rw [show (8 - cursor + 8 + 8 - 8 : Nat) = 8 - cursor + 8 from by omega,
                if_pos (show n - (8 - cursor + 8) ≤ 8 from by omega)]
          have hsplit : (byte >>> cursor) + 2 ^ (8 - cursor) * bytesToNat (b₁ :: b₂ :: rest₂)
              = ((byte >>> cursor + b₁ * 2 ^ (8 - cursor)) + 2 ^ (8 - cursor + 8) * b₂)
                + 2 ^ (8 - cursor + 8) * 256 * bytesToNat rest₂ := by
            show _ + 2 ^ (8 - cursor) * (b₁ + 256 * (b₂ + 256 * bytesToNat rest₂)) = _
            rw [e8]
            ring_nf
          refine ⟨fun _ => ⟨⟨rest₂, b₂, n - (8 - cursor + 8)⟩, ?_,
              ⟨hb₂, by show n - (8 - cursor + 8) ≤ 8; omega, hrest₂⟩, ?_, ?_⟩,
              fun hlt => by simp at hlt; omega⟩
          · rw [hrun, hsplit]
            have e16' : (2 : Nat) ^ (8 - cursor + 8) * 256 = 2 ^ (8 - cursor + 16) := by
              have h256 : (256 : Nat) = 2 ^ 8 := by norm_num
              rw [h256, ← pow_add]
            rw [e16', @add_pow_mod_eq _ _ _ (8 - cursor + 16) (by omega)]
            have hb2split : (2 : Nat) ^ (8 - cursor + 8) * b₂
                = 2 ^ (8 - cursor + 8) * (b₂ % 2 ^ (8 - (8 - cursor)))
                  + 2 ^ 16 * (b₂ / 2 ^ (8 - (8 - cursor))) := by
              conv =>
                lhs
                rw [← Nat.mod_add_div b₂ (2 ^ (8 - (8 - cursor)))]
              rw [Nat.mul_add, ← Nat.mul_assoc, ← pow_add]
              have he : 8 - cursor + 8 + (8 - (8 - cursor)) = 16 := by omega
              rw [he]
            rw [hb2split, ← Nat.add_assoc, @add_pow_mod_eq _ _ _ 16 (by omega),
                and_mask_eq_mod]
            congr 2
            ring_nf
          · show (b₂ >>> (n - (8 - cursor + 8)))
                + 2 ^ (8 - (n - (8 - cursor + 8))) * bytesToNat rest₂ = _
            have hsplit' : (byte >>> cursor) + 2 ^ (8 - cursor) * bytesToNat (b₁ :: b₂ :: rest₂)
                = (byte >>> cursor + b₁ * 2 ^ (8 - cursor))
                  + 2 ^ (8 - cursor + 8) * (b₂ + 256 * bytesToNat rest₂) := by
              show _ + 2 ^ (8 - cursor) * (b₁ + 256 * (b₂ + 256 * bytesToNat rest₂)) = _
              rw [e8]
              ring_nf
            rw [hsplit']
            have h2n : (2 : Nat) ^ n = 2 ^ (8 - cursor + 8) * 2 ^ (n - (8 - cursor + 8)) := by
              rw [← pow_add]
              congr 1
              omega
            rw [h2n, ← Nat.div_div_eq_div_mul,
                Nat.add_mul_div_left _ _ (Nat.two_pow_pos _),
                Nat.div_eq_of_lt hres₁lt, Nat.zero_add]
            have hW : (b₂ + 256 * bytesToNat rest₂) / 2 ^ (n - (8 - cursor + 8))
                = b₂ / 2 ^ (n - (8 - cursor + 8))
                  + 2 ^ (8 - (n - (8 - cursor + 8))) * bytesToNat rest₂ := by
              have h256 : (256 : Nat) = 2 ^ 8 := by norm_num
              rw [h256, add_pow_div_eq (by omega)]
            rw [hW, Nat.shiftRight_eq_div_pow]
          · show (8 - (n - (8 - cursor + 8))) + 8 * rest₂.length = _
            simp only [List.length_cons]
            omega

/-- C5: for every underlying byte iterator and every `n ∈ [1,15]`,
`next_bits n` either returns end-of-stream — which it does exactly when
fewer than `n` bits remain, i.e. as soon as a byte fetch underflows, even in
the middle of a code — or returns the next `n` bits of the stream taken
LSB-first (little-endian within each byte, the next byte's bits entering on
the high side), a value lying in `[0, 2^n)`; the leftover stream holds the
remaining bits. -/
theorem next_bits_spec (bs : BitStream) (n : Nat)
    (hwf : bs.WF) (h1 : 1 ≤ n) (h15 : n ≤ 15) :
    (n ≤ bs.avail →
      ∃ bs', bs.next_bits n = .ok (some (bs.toNat % 2 ^ n), bs') ∧
        bs.toNat % 2 ^ n < 2 ^ n ∧ bs'.WF ∧
        bs'.toNat = bs.toNat / 2 ^ n ∧ bs'.avail = bs.avail - n) ∧
    (bs.avail < n → ∃ bs', bs.next_bits n = .ok (none, bs')) := by
  obtain ⟨r, byte, cursor⟩ := bs
  obtain ⟨hb, hc, hr⟩ := hwf
  simp only [BitStream.WF] at hb hc hr
  have h16 : ¬ (16 ≤ n) := by omega
  by_cases h8 : cursor = 8
  · subst h8
    have hsh : byte >>> 8 = 0 := by
      rw [Nat.shiftRight_eq_div_pow]
      exact Nat.div_eq_of_lt (by norm_num at hb ⊢; omega)
    cases r with
    | nil =>
      constructor
      · intro hle
        simp [BitStream.avail] at hle
        omega
      · intro _
        exact ⟨⟨[], byte, 8⟩, by simp [BitStream.next_bits, h16]⟩
    | cons b rest =>
      have hbb : b < 256 := hr b (by simp)
      have hrest : ∀ x ∈ rest, x < 256 := fun x hx => hr x (by simp [hx])
      have hcore := next_bits_go_spec rest b 0 n hbb (by omega) hrest h1 h15
      have havail : (⟨b :: rest, byte, 8⟩ : BitStream).avail = (8 - 0) + 8 * rest.length := by
        simp [BitStream.avail]
        omega
      have htoNat : (⟨b :: rest, byte, 8⟩ : BitStream).toNat
          = (b >>> 0) + 2 ^ (8 - 0) * bytesToNat rest := by
        show byte >>> 8 + 2 ^ (8 - 8) * bytesToNat (b :: rest) = _
        rw [hsh, Nat.shiftRight_zero]
        show 0 + 2 ^ 0 * (b + 256 * bytesToNat rest) = _
        norm_num
      have hnext : (⟨b :: rest, byte, 8⟩ : BitStream).next_bits n = next_bits_go rest b 0 n := by
        simp [BitStream.next_bits, h16]
      rw [havail, htoNat, hnext]
      refine ⟨fun hle => ?_, hcore.2⟩
      obtain ⟨bs', he, hw, ht, hv⟩ := hcore.1 hle
      exact ⟨bs', he, Nat.mod_lt _ (Nat.two_pow_pos n), hw, ht, hv⟩
  · have hc7 : cursor ≤ 7 := by omega
    have hcore := next_bits_go_spec r byte cursor n hb hc7 hr h1 h15
    have hnext : (⟨r, byte, cursor⟩ : BitStream).next_bits n = next_bits_go r byte cursor n := by
      simp [BitStream.next_bits, h16, h8]
    have havail : (⟨r, byte, cursor⟩ : BitStream).avail = (8 - cursor) + 8 * r.length := rfl
    have htoNat : (⟨r, byte, cursor⟩ : BitStream).toNat
        = (byte >>> cursor) + 2 ^ (8 - cursor) * bytesToNat r := rfl
    rw [havail, htoNat, hnext]
    refine ⟨fun hle => ?_, hcore.2⟩
    obtain ⟨bs', he, hw, ht, hv⟩ := hcore.1 hle
    exact ⟨bs', he, Nat.mod_lt _ (Nat.two_pow_pos n), hw, ht, hv⟩

/-- Witness for `next_bits_spec` at a concrete stream and width. -/
theorem next_bits_spec_witness :
    ((⟨[171, 205], 0, 8⟩ : BitStream).WF ∧ 1 ≤ 12 ∧ 12 ≤ 15) ∧
    ((12 ≤ (⟨[171, 205], 0, 8⟩ : BitStream).avail →
      ∃ bs', (⟨[171, 205], 0, 8⟩ : BitStream).next_bits 12 =
          .ok (some ((⟨[171, 205], 0, 8⟩ : BitStream).toNat % 2 ^ 12), bs') ∧
        (⟨[171, 205], 0, 8⟩ : BitStream).toNat % 2 ^ 12 < 2 ^ 12 ∧ bs'.WF ∧
        bs'.toNat = (⟨[171, 205], 0, 8⟩ : BitStream).toNat / 2 ^ 12 ∧
        bs'.avail = (⟨[171, 205], 0, 8⟩ : BitStream).avail - 12) ∧
    ((⟨[171, 205], 0, 8⟩ : BitStream).avail < 12 →
      ∃ bs', (⟨[171, 205], 0, 8⟩ : BitStream).next_bits 12 = .ok (none, bs'))) :=
  ⟨⟨by decide, by decide, by decide⟩,
   next_bits_spec ⟨[171, 205], 0, 8⟩ 12 (by decide) (by decide) (by decide)⟩

/-! ## LZW dictionary and decoder (src/lzw.rs) -/

/-- `MAX_CODESIZE` from src/lzw.rs. -/
def MAX_CODESIZE : Nat := 12

/-- `MAX_ENTRIES = 1 << MAX_CODESIZE` from src/lzw.rs. -/
def MAX_ENTRIES : Nat := 4096

/-- `CODE_NONE = u16::MAX`: the packed "no previous code" sentinel. -/
def CODE_NONE : Nat := 65535

/-- `DecodingDict` from src/lzw.rs.  `table` is the
`heapless::Vec<(Code, u8), 4096>`; the scratch `buffer`
(`heapless::Vec<u8, 1024>`) is cleared at the start of every `reconstruct`
and only read back immediately afterwards, so it is modeled as the return
value of `reconstruct` rather than a field. -/
structure DecodingDict where
  min_size : Nat
  table : List (Nat × Nat)
deriving DecidableEq, Repr

/-- `DecodingDict::new`. -/
def DecodingDict.new (min_size : Nat) : DecodingDict :=
  { min_size := min_size, table := [] }

/-- `DecodingDict::reset`: clear the table and push the `1 << min_size` root
entries `(CODE_NONE, i as u8)` with `push(..).unwrap()` — the `unwrap`
panics if the roots exceed the 4096-entry capacity.  The `u16` shift is
modeled with the release-mode masked shift amount. -/
def DecodingDict.reset (d : DecodingDict) : Except Fail DecodingDict :=
  if 2 ^ (d.min_size % 16) ≤ 4096 then
    .ok { d with table := (List.range (2 ^ (d.min_size % 16))).map (fun i => (CODE_NONE, i % 256)) }
  else .error .panicked

/-- `DecodingDict::push`: `self.table.push((key, value)).unwrap()` on the
4096-capacity `heapless::Vec` — panics when the table is already full
(the check flagged `// TODO: overflow check` in the source is absent). -/
def DecodingDict.push (d : DecodingDict) (key value : Nat) : Except Fail DecodingDict :=
  if d.table.length < 4096 then .ok { d with table := d.table ++ [(key, value)] }
  else .error .panicked

/-- The `while code != CODE_NONE` loop of `DecodingDict::reconstruct`
(src/lzw.rs lines 68-80).  In order: the `buffer.len() >= MAX_ENTRIES`
cycle guard returns `InvalidByte`; `self.table[code as usize]` panics when
out of bounds; `self.buffer.push(cha).unwrap()` panics when the 1024-byte
scratch buffer is full.  `fuel = 1026` always suffices: every iteration
pushes one byte into the 1024-capacity buffer, so at most 1025 iterations
can start. -/
def reconstructLoop (table : List (Nat × Nat)) (fuel code : Nat) (buffer : List Nat) :
    Except Fail (List Nat) :=
  match fuel with
  | 0 => .error .panicked
  | fuel + 1 =>
    if code = CODE_NONE then .ok buffer
    else if 4096 ≤ buffer.length then .error (.err .invalidByte)
    else
      match table[code]? with
      | none => .error .panicked
      | some (code2, cha) =>
        if buffer.length < 1024 then reconstructLoop table fuel code2 (buffer ++ [cha])
        else .error .panicked

/-- `DecodingDict::reconstruct`.  The guarded first table access returns
`InvalidByte` on a bad code (the following `buffer.push` cannot fail on the
just-cleared buffer); the final `self.buffer.reverse()` is the
`.map List.reverse`. -/
def DecodingDict.reconstruct (d : DecodingDict) (code : Nat) : Except Fail (List Nat) :=
  if code ≠ CODE_NONE then
    match d.table[code]? with
    | none => .error (.err .invalidByte)
    | some (code2, cha) => (reconstructLoop d.table 1026 code2 [cha]).map List.reverse
  else (reconstructLoop d.table 1026 code []).map List.reverse

/-- `DecodingDict::next_code`: the current table length. -/
def DecodingDict.next_code (d : DecodingDict) : Nat := d.table.length

/-- `Decoder` from src/lzw.rs, with the underlying byte iterator specialized
to a byte list inside `bs`. -/
structure Decoder where
  bs : BitStream
  prev : Nat
  table : DecodingDict
  buf : Nat
  code_size : Nat
  min_code_size : Nat
  clear_code : Nat
  end_code : Nat
deriving DecidableEq, Repr

/-- `Decoder::new`.  `1 << min_code_size` on `u16` is modeled with the
release-mode masked shift amount. -/
def Decoder.new (r : List Nat) (min_code_size : Nat) : Decoder :=
  { bs := BitStream.new r
    prev := CODE_NONE
    table := DecodingDict.new min_code_size
    buf := 0
    code_size := min_code_size + 1
    min_code_size := min_code_size
    clear_code := 2 ^ (min_code_size % 16)
    end_code := 2 ^ (min_code_size % 16) + 1 }

/-- `Decoder::decode_next` from src/lzw.rs.  Returns the emitted byte run
(`none` = end of stream) together with the updated decoder.  The
`reconstruct(..)?[0]` slice indexings are the `.panicked` branches on an
empty reconstruction; the final `unreachable!("checked above")` is the last
`.panicked`. -/
def Decoder.decode_next (d : Decoder) : Except Fail (Option (List Nat) × Decoder) :=
  match d.bs.next_bits d.code_size with
  | .error e => .error e
  | .ok (none, bs1) => .ok (none, { d with bs := bs1 })
  | .ok (some code, bs1) =>
    let d1 := { d with bs := bs1 }
    if code = d1.clear_code then
      match d1.table.reset with
      | .error e => .error e
      | .ok t0 =>
        match t0.push CODE_NONE 0 with
        | .error e => .error e
        | .ok t1 =>
          match t1.push CODE_NONE 0 with
          | .error e => .error e
          | .ok t2 =>
            .ok (some [],
                 { d1 with
                   table := t2
                   code_size := d1.min_code_size + 1
                   prev := CODE_NONE })
    else if code = d1.end_code then
      .ok (some [], d1)
    else
      let next_code := d1.table.next_code
      if next_code < code then .error (.err .invalidByte)
      else
        let prev := d1.prev
        let step : Except Fail (List Nat × DecodingDict × Nat) :=
          if prev = CODE_NONE then
            .ok ([code % 256], d1.table, code % 256)
          else if code = next_code then
            match d1.table.reconstruct prev with
            | .error e => .error e
            | .ok w =>
              match w[0]? with
              | none => .error .panicked
              | some chr =>
                match d1.table.push prev chr with
                | .error e => .error e
                | .ok t2 =>
                  match t2.reconstruct code with
                  | .error e => .error e
                  | .ok rres => .ok (rres, t2, d1.buf)
          else if code < next_code then
            match d1.table.reconstruct code with
            | .error e => .error e
            | .ok w =>
              match w[0]? with
              | none => .error .panicked
              | some chr =>
                match d1.table.push prev chr with
                | .error e => .error e
                | .ok t2 => .ok (w, t2, d1.buf)
          else .error .panicked
        match step with
        | .error e => .error e
        | .ok (result, t2, buf2) =>
          .ok (some result,
               { d1 with
                 table := t2
                 buf := buf2
                 code_size :=
                   if next_code = 2 ^ (d1.code_size % 16) - 1 ∧ d1.code_size < MAX_CODESIZE
                   then d1.code_size + 1 else d1.code_size
                 prev := code })

/-! ## Claims C1 and C2: buffer sizing and failure reporting -/

/-- A linear 1026-entry chain: entry 0 is a root, entry `i+1` points back to
entry `i`; a perfectly valid dictionary chain of 1026 bytes
(each `prev` is either the sentinel or a strictly smaller index). -/
def chainTable : List (Nat × Nat) :=
  (List.range 1026).map (fun i => (if i = 0 then CODE_NONE else i - 1, i % 256))

theorem chainTable_get {c : Nat} (h : c < 1026) :
    chainTable[c]? = some (if c = 0 then CODE_NONE else c - 1, c % 256) := by
  unfold chainTable
  rw [List.getElem?_map, List.getElem?_range h]
  rfl

theorem chainTable_loop_panics (fuel : Nat) :
    ∀ c : Nat, ∀ buffer : List Nat, c + buffer.length = 1025 → 1 ≤ c → c ≤ fuel →
      reconstructLoop chainTable fuel c buffer = .error .panicked := by
  induction fuel with
  | zero => intro c buffer _ _ hf; omega
  | succ fuel ih =>
    intro c buffer hsum hc1 _
    rw [reconstructLoop]
    rw [if_neg (show ¬ c = CODE_NONE by unfold CODE_NONE; omega),
        if_neg (show ¬ 4096 ≤ buffer.length by omega)]
    rw [chainTable_get (by omega)]
    simp only [if_neg (show ¬ c = 0 by omega)]
    by_cases hlen : buffer.length < 1024
    · rw [if_pos hlen]
      apply ih (c - 1) (buffer ++ [c % 256])
      · simp
        omega
      · omega
      · omega
    · rw [if_neg hlen]

/-- C1: the claim says the reconstruction scratch buffer holds 4096 bytes so
that `reconstruct` succeeds, without trapping, on every valid chain of at
most 4096 bytes.  In the source the buffer is `heapless::Vec<u8, 1024>`:
reconstructing the valid 1026-byte chain `chainTable` (no forward edge, no
cycle, table well under 4096 entries) panics on `buffer.push(..).unwrap()`
when the 1024-byte buffer fills, instead of returning the decoded run. -/
theorem reconstruct_valid_chain_1026_panics :
    chainTable.length = 1026 ∧
    (∀ i < 1026, (chainTable[i]?.getD (0, 0)).1 = CODE_NONE ∨
        (chainTable[i]?.getD (0, 0)).1 < i) ∧
    DecodingDict.reconstruct ⟨2, chainTable⟩ 1025 = .error .panicked := by
  refine ⟨by simp [chainTable], ?_, ?_⟩
  · intro i hi
    rw [chainTable_get hi]
    by_cases h0 : i = 0
    · left
      simp [h0]
    · right
      simp [h0]
      omega
  · show DecodingDict.reconstruct ⟨2, chainTable⟩ 1025 = .error .panicked
    rw [DecodingDict.reconstruct]
    rw [if_pos (show (1025 : Nat) ≠ CODE_NONE by unfold CODE_NONE; omega)]
    have hg : chainTable[(1025 : Nat)]? = some (1024, 1) := by
      rw [chainTable_get (by omega)]
      rfl
    simp only [hg]
    rw [chainTable_loop_panics 1026 1024 [1] (by simp) (by omega) (by omega)]
    rfl

theorem self_loop_panics (fuel : Nat) :
    ∀ buffer : List Nat, buffer.length ≤ 1024 → 1025 - buffer.length ≤ fuel →
      reconstructLoop [(0, 65)] fuel 0 buffer = .error .panicked := by
  induction fuel with
  | zero => intro buffer h1 h2; omega
  | succ fuel ih =>
    intro buffer h1 _
    rw [reconstructLoop]
    rw [if_neg (show ¬ (0 : Nat) = CODE_NONE by unfold CODE_NONE; omega),
        if_neg (show ¬ 4096 ≤ buffer.length by omega)]
    have hg : [((0 : Nat), (65 : Nat))][(0 : Nat)]? = some (0, 65) := rfl
    simp only [hg]
    by_cases hlen : buffer.length < 1024
    · rw [if_pos hlen]
      apply ih (buffer ++ [65])
      · simp
        omega
      · simp
        omega
    · rw [if_neg hlen]

/-- C2: of the four LZW failure conditions the claim routes to `InvalidByte`,
only the out-of-range code is actually reported that way:
(1) pushing into a full 4096-entry dictionary panics (`push(..).unwrap()`,
    the check flagged `// TODO: overflow check` is absent);
(2) reconstructing through a cycle (here a self-loop) panics when the
    1024-byte scratch buffer fills — the `buffer.len() >= MAX_ENTRIES`
    cycle guard sits at 4096 and is unreachable — and an oversize (>1024
    byte) chain panics the same way (`reconstruct_valid_chain_1026_panics`);
(3) a code greater than `next_code` is indeed returned as `Err(InvalidByte)`. -/
theorem lzw_failure_reporting :
    (DecodingDict.push ⟨2, List.replicate 4096 (CODE_NONE, 0)⟩ 5 7 = .error .panicked) ∧
    (DecodingDict.reconstruct ⟨2, [(0, 65)]⟩ 0 = .error .panicked) ∧
    (Decoder.decode_next
        { bs := ⟨[7], 0, 8⟩, prev := CODE_NONE
          table := ⟨2, [(CODE_NONE, 0), (CODE_NONE, 1), (CODE_NONE, 2), (CODE_NONE, 3),
                        (CODE_NONE, 0), (CODE_NONE, 0)]⟩
          buf := 0, code_size := 3, min_code_size := 2, clear_code := 4, end_code := 5 }
      = .error (.err .invalidByte)) := by
  refine ⟨?_, ?_, rfl⟩
  · simp only [DecodingDict.push, List.length_replicate]
    rw [if_neg (by omega)]
  · rw [DecodingDict.reconstruct]
    rw [if_pos (show (0 : Nat) ≠ CODE_NONE by unfold CODE_NONE; omega)]
    have hg : ((⟨2, [(0, 65)]⟩ : DecodingDict).table)[(0 : Nat)]? = some (0, 65) := rfl
    simp only [hg]
    rw [self_loop_panics 1026 [65] (by simp) (by simp)]
    rfl

/-! ## Claim C3: the KwKwK case -/

theorem reconstructLoop_prefix {t : List (Nat × Nat)} {fuel code : Nat} {buffer res : List Nat}
    (h : reconstructLoop t fuel code buffer = .ok res) : ∃ g, res = buffer ++ g := by
  induction fuel generalizing code buffer with
  | zero => simp [reconstructLoop] at h
  | succ fuel ih =>
    rw [reconstructLoop] at h
    split at h
    · refine ⟨[], ?_⟩
      simp only [Except.ok.injEq] at h
      simp [h]
    · split at h
      · simp at h
      · split at h
        · simp at h
        · rename_i code2 cha heq
          split at h
          · obtain ⟨g, hg⟩ := ih h
            exact ⟨cha :: g, by simpa [List.append_assoc] using hg⟩
          · simp at h

theorem reconstructLoop_fuel_le {t : List (Nat × Nat)} {fuel code : Nat} {buffer res : List Nat}
    (h : reconstructLoop t fuel code buffer = .ok res) (hbuf : buffer.length ≤ 1024) :
    ∀ g : Nat, 1025 - buffer.length ≤ g → reconstructLoop t g code buffer = .ok res := by
  induction fuel generalizing code buffer with
  | zero => simp [reconstructLoop] at h
  | succ fuel ih =>
    intro g hg
    obtain ⟨g2, rfl⟩ : ∃ g2, g = g2 + 1 := ⟨g - 1, by omega⟩
    rw [reconstructLoop] at h
    rw [reconstructLoop]
    split at h
    · rename_i hcode
      rw [if_pos hcode]
      exact h
    · rename_i hcode
      rw [if_neg hcode]
      split at h
      · simp at h
      · rename_i h4096
        rw [if_neg h4096]
        split at h
        · simp at h
        · rename_i code2 cha heq
          split at h
          · rename_i hlen
            rw [if_pos hlen]
            exact ih h (by simp; omega) g2 (by simp; omega)
          · simp at h

theorem reconstructLoop_shift {t : List (Nat × Nat)} {e : Nat × Nat} {fuel code : Nat}
    {pre buffer res : List Nat}
    (h : reconstructLoop t fuel code buffer = .ok res)
    (hlen : pre.length + res.length ≤ 1024) :
    reconstructLoop (t ++ [e]) fuel code (pre ++ buffer) = .ok (pre ++ res) := by
  induction fuel generalizing code buffer with
  | zero => simp [reconstructLoop] at h
  | succ fuel ih =>
    obtain ⟨gg, hgg⟩ := reconstructLoop_prefix h
    rw [reconstructLoop] at h
    rw [reconstructLoop]
    split at h
    · rename_i hcode
      rw [if_pos hcode]
      simp only [Except.ok.injEq] at h
      rw [h]
    · rename_i hcode
      rw [if_neg hcode]
      have hblen : buffer.length ≤ res.length := by
        rw [hgg]
        simp
      rw [if_neg (show ¬ 4096 ≤ (pre ++ buffer).length by simp; omega)]
      split at h
      · simp at h
      · split at h
        · simp at h
        · rename_i code2 cha heq
          have hcodelt : code < t.length := by
            by_contra hcl
            rw [List.getElem?_eq_none (by omega)] at heq
            simp at heq
          have happ : (t ++ [e])[code]? = some (code2, cha) := by
            rw [List.getElem?_append_left hcodelt]
            exact heq
          simp only [happ]
          split at h
          · rename_i hblt
            obtain ⟨g2, hg2⟩ := reconstructLoop_prefix h
            have hlt2 : (pre ++ buffer).length < 1024 := by
              have : buffer.length + 1 ≤ res.length := by
                rw [hg2]
                simp
              simp
              omega
            rw [if_pos hlt2]
            have hrec := ih h
            rw [← List.append_assoc] at hrec
            exact hrec
          · simp at h

theorem reconstructLoop_step {t : List (Nat × Nat)} {fuel code code2 cha : Nat}
    {buffer : List Nat}
    (hcode : code ≠ CODE_NONE) (h4096 : ¬ 4096 ≤ buffer.length)
    (heq : t[code]? = some (code2, cha)) (hlen : buffer.length < 1024) :
    reconstructLoop t (fuel + 1) code buffer = reconstructLoop t fuel code2 (buffer ++ [cha]) := by
  rw [reconstructLoop, if_neg hcode, if_neg h4096]
  simp only [heq]
  rw [if_pos hlen]

/-- After pushing `(prev, w[0])` for `w = reconstruct prev`, reconstructing
the freshly assigned code (the old table length) yields `w ++ [w[0]]`. -/
theorem reconstruct_push_extend {d : DecodingDict} {prev w0 : Nat} {w : List Nat}
    (hprev : prev ≠ CODE_NONE)
    (hw : d.reconstruct prev = .ok w)
    (hwlen : w.length < 1024)
    (hn : d.table.length < 4096) :
    DecodingDict.reconstruct ⟨d.min_size, d.table ++ [(prev, w0)]⟩ d.table.length
      = .ok (w ++ [w0]) := by
  rw [DecodingDict.reconstruct, if_pos hprev] at hw
  cases heq : d.table[prev]? with
  | none =>
    rw [heq] at hw
    simp at hw
  | some p =>
    obtain ⟨c₁, ch₁⟩ := p
    simp only [heq] at hw
    cases hloop : reconstructLoop d.table 1026 c₁ [ch₁] with
    | error e =>
      rw [hloop] at hw
      simp [Except.map] at hw
    | ok b =>
      rw [hloop] at hw
      simp only [Except.map, Except.ok.injEq] at hw
      have hprevlt : prev < d.table.length := by
        by_contra hcl
        rw [List.getElem?_eq_none (by omega)] at heq
        simp at heq
      rw [DecodingDict.reconstruct]
      rw [if_pos (show d.table.length ≠ CODE_NONE by unfold CODE_NONE; omega)]
      have hg2 : (⟨d.min_size, d.table ++ [(prev, w0)]⟩ : DecodingDict).table[d.table.length]?
          = some (prev, w0) := by
        show (d.table ++ [(prev, w0)])[d.table.length]? = some (prev, w0)
        exact List.getElem?_concat_length _ _
      simp only [hg2]
      have happ : (d.table ++ [(prev, w0)])[prev]? = some (c₁, ch₁) := by
        rw [List.getElem?_append_left hprevlt]
        exact heq
      have hb1024 : reconstructLoop d.table 1024 c₁ [ch₁] = .ok b :=
        reconstructLoop_fuel_le hloop (by simp) 1024 (by simp)
      have hshift : reconstructLoop (d.table ++ [(prev, w0)]) 1024 c₁ ([w0] ++ [ch₁])
          = .ok ([w0] ++ b) := by
        apply reconstructLoop_shift hb1024
        have : b.length = w.length := by rw [← hw]; simp
        simp
        omega
      have hlift : reconstructLoop (d.table ++ [(prev, w0)]) 1025 c₁ ([w0] ++ [ch₁])
          = .ok ([w0] ++ b) :=
        reconstructLoop_fuel_le hshift (by simp) 1025 (by simp)
      have hstep : reconstructLoop (d.table ++ [(prev, w0)]) 1026 prev [w0]
          = reconstructLoop (d.table ++ [(prev, w0)]) 1025 c₁ ([w0] ++ [ch₁]) := by
        rw [show (1026 : Nat) = 1025 + 1 from rfl]
        exact reconstructLoop_step hprev (by simp) happ (by simp)
      rw [hstep, hlift]
      show Except.ok ([w0] ++ b).reverse = _
      rw [List.reverse_append]
      simp [hw]

/-- C3: in the KwKwK case — previous-code latch set and the code read equal
to `next_code()` — `decode_next` pushes `(prev, w[0])` for
`w = reconstruct(prev)` and emits `w ++ [w[0]]`: the previous string plus
its own first byte. -/
theorem decode_next_kwkwk (d : Decoder) (c : Nat) (bs1 : BitStream)
    (w0 : Nat) (tl : List Nat)
    (hbits : d.bs.next_bits d.code_size = .ok (some c, bs1))
    (hclear : c ≠ d.clear_code) (hend : c ≠ d.end_code)
    (hprev : d.prev ≠ CODE_NONE)
    (hkwk : c = d.table.next_code)
    (hw : d.table.reconstruct d.prev = .ok (w0 :: tl))
    (hwlen : (w0 :: tl).length < 1024)
    (hroom : d.table.table.length < 4096) :
    ∃ d2, d.decode_next = .ok (some ((w0 :: tl) ++ [w0]), d2) ∧
      d2.table.table = d.table.table ++ [(d.prev, w0)] ∧ d2.prev = c := by
  rw [Decoder.decode_next]
  simp only [hbits]
  rw [if_neg hclear, if_neg hend]
  have hnc : (d.table.next_code : Nat) = d.table.table.length := rfl
  rw [if_neg (show ¬ d.table.next_code < c by omega)]
  rw [if_neg hprev, if_pos hkwk]
  simp only [hw]
  have hpush : d.table.push d.prev w0 =
      .ok ⟨d.table.min_size, d.table.table ++ [(d.prev, w0)]⟩ := by
    rw [DecodingDict.push, if_pos hroom]
  simp only [List.getElem?_cons_zero, hpush]
  have hext := @reconstruct_push_extend d.table _ w0 _
      hprev hw (by simpa using hwlen) hroom
  rw [hkwk, hnc]
  simp only [hext]
  exact ⟨_, rfl, rfl, rfl⟩

/-- Witness for `decode_next_kwkwk`: a dictionary in the post-clear state
with one extra entry, previous code 1, and the next code 6 arriving. -/
theorem decode_next_kwkwk_witness :
    (let d : Decoder :=
      { bs := ⟨[6], 0, 8⟩, prev := 1
        table := ⟨2, [(CODE_NONE, 0), (CODE_NONE, 1), (CODE_NONE, 2), (CODE_NONE, 3),
                      (CODE_NONE, 0), (CODE_NONE, 0)]⟩
        buf := 0, code_size := 3, min_code_size := 2, clear_code := 4, end_code := 5 }
    ∃ d2, d.decode_next = .ok (some ([1] ++ [1]), d2) ∧
      d2.table.table = d.table.table ++ [(d.prev, 1)] ∧ d2.prev = 6) :=
  decode_next_kwkwk _ 6 ⟨[], 6, 3⟩ 1 []
    (by decide) (by decide) (by decide) (by decide) (by decide) (by decide)
    (by decide) (by decide)

/-! ## Claim C4: code-size growth -/

/-- C4: after a successful `decode_next` step on a code that is neither the
clear code nor the end code (read at the pre-step width `code_size`),
`code_size` grows by exactly one precisely when `next_code()` — the table
length captured before this step's push — equals `2^code_size - 1` and
`code_size < 12`; otherwise it is unchanged, so `code_size` never exceeds
12. -/
theorem decode_next_code_size_growth (d : Decoder) (c : Nat) (bs1 : BitStream)
    (out : List Nat) (d2 : Decoder)
    (hbits : d.bs.next_bits d.code_size = .ok (some c, bs1))
    (hclear : c ≠ d.clear_code) (hend : c ≠ d.end_code)
    (hok : d.decode_next = .ok (some out, d2)) :
    d2.code_size = (if d.table.next_code = 2 ^ d.code_size - 1 ∧ d.code_size < 12
        then d.code_size + 1 else d.code_size) ∧
    (d.code_size ≤ 12 → d2.code_size ≤ 12) := by
  have hcs16 : d.code_size < 16 := by
    by_contra hge
    rw [BitStream.next_bits, if_pos (by omega)] at hbits
    simp at hbits
  have hmod : d.code_size % 16 = d.code_size := Nat.mod_eq_of_lt hcs16
  rw [Decoder.decode_next] at hok
  simp only [hbits] at hok
  rw [if_neg hclear, if_neg hend] at hok
  split at hok
  · simp at hok
  · split at hok
    · simp at hok
    · simp only [Except.ok.injEq, Prod.mk.injEq] at hok
      obtain ⟨-, hd2⟩ := hok
      rw [← hd2]
      constructor
      · show (if d.table.next_code = 2 ^ (d.code_size % 16) - 1 ∧ d.code_size < MAX_CODESIZE
            then d.code_size + 1 else d.code_size) = _
        rw [hmod]
        unfold MAX_CODESIZE
        rfl
      · intro h12
        show (if d.table.next_code = 2 ^ (d.code_size % 16) - 1 ∧ d.code_size < MAX_CODESIZE
            then d.code_size + 1 else d.code_size) ≤ 12
        split
        · rename_i hcond
          have h2 := hcond.2
          unfold MAX_CODESIZE at h2
          omega
        · exact h12

/-- Witness for `decode_next_code_size_growth`: a step whose captured
`next_code` is `7 = 2^3 - 1`, growing the width from 3 to 4. -/
theorem decode_next_code_size_growth_witness :
    (let d : Decoder :=
      { bs := ⟨[0], 0, 8⟩, prev := 0
        table := ⟨2, [(CODE_NONE, 0), (CODE_NONE, 1), (CODE_NONE, 2), (CODE_NONE, 3),
                      (CODE_NONE, 0), (CODE_NONE, 0), (0, 0)]⟩
        buf := 0, code_size := 3, min_code_size := 2, clear_code := 4, end_code := 5 }
    let d2 : Decoder :=
      { bs := ⟨[], 0, 3⟩, prev := 0
        table := ⟨2, [(CODE_NONE, 0), (CODE_NONE, 1), (CODE_NONE, 2), (CODE_NONE, 3),
                      (CODE_NONE, 0), (CODE_NONE, 0), (0, 0), (0, 0)]⟩
        buf := 0, code_size := 4, min_code_size := 2, clear_code := 4, end_code := 5 }
    d2.code_size = (if d.table.next_code = 2 ^ d.code_size - 1 ∧ d.code_size < 12
        then d.code_size + 1 else d.code_size) ∧
    (d.code_size ≤ 12 → d2.code_size ≤ 12)) :=
  decode_next_code_size_growth _ 0 ⟨[], 0, 3⟩ [0] _
    (by decide) (by decide) (by decide) (by decide)

/-! ## Sub-block stream (src/lib.rs, `LenPrefixRawDataView`) -/

/-- `LenPrefixRawDataView` from src/lib.rs.  `remains` is the unread chain
tail (starting at a length byte), `current_block` the block being emitted,
`cursor` the next index inside it.  All reachable blocks have length
≤ 255 (their length comes from a single byte), so the Rust `u8` cursor and
the `len() as u8` cast are lossless and modeled as plain `Nat`. -/
structure LenPrefixRawDataView where
  remains : List Nat
  current_block : List Nat
  cursor : Nat
deriving DecidableEq, Repr

/-- `LenPrefixRawDataView::new`.  `data[0]`, `&data[1 + len..]` and
`&data[1..1 + len]` panic when `data` is empty or shorter than `1 + len`. -/
def LenPrefixRawDataView.new (data : List Nat) : Except Fail LenPrefixRawDataView :=
  match data with
  | [] => .error .panicked
  | len :: rest =>
    if len ≤ rest.length then
      .ok { remains := rest.drop len, current_block := rest.take len, cursor := 0 }
    else .error .panicked

/-- `LenPrefixRawDataView::shift_next_block` (leaves the cursor untouched).
`self.remains[0]` and `&self.remains[1..1 + len]` panic on truncated
chains. -/
def LenPrefixRawDataView.shift_next_block (v : LenPrefixRawDataView) :
    Except Fail LenPrefixRawDataView :=
  if v.current_block = [] then .ok v
  else
    match v.remains with
    | [] => .error .panicked
    | len :: rest =>
      if len = 0 then .ok { v with remains := [], current_block := [] }
      else if len ≤ rest.length then
        .ok { v with current_block := rest.take len, remains := rest.drop len }
      else .error .panicked

/-- `LenPrefixRawDataView::shift_cursor`. -/
def LenPrefixRawDataView.shift_cursor (v : LenPrefixRawDataView) :
    Except Fail LenPrefixRawDataView :=
  if v.current_block = [] then .ok v
  else if v.cursor < v.current_block.length - 1 then
    .ok { v with cursor := v.cursor + 1 }
  else
    LenPrefixRawDataView.shift_next_block { v with cursor := 0 }

/-- `Iterator::next` for `LenPrefixRawDataView`.  Returning `.ok none`
models the Rust `None`; the state is unchanged in that case (the Rust
method does not touch `self` on the empty-block path), so "end stays
end".  `self.current_block[self.cursor]` panics when out of bounds
(unreachable from constructed states). -/
def LenPrefixRawDataView.next (v : LenPrefixRawDataView) :
    Except Fail (Option (Nat × LenPrefixRawDataView)) :=
  if v.current_block = [] then .ok none
  else
    match v.current_block[v.cursor]? with
    | none => .error .panicked
    | some current => (v.shift_cursor).map (fun v2 => some (current, v2))

/-- Driving loop for the iterator: collect every byte `next` yields until it
reports end.  `fuel` bounds the number of `next` calls;
`remains.length + current_block.length + 1` always suffices. -/
def drainF (fuel : Nat) (v : LenPrefixRawDataView) : Except Fail (List Nat) :=
  match fuel with
  | 0 => .error .panicked
  | fuel + 1 =>
    match v.next with
    | .error e => .error e
    | .ok none => .ok []
    | .ok (some (b, v2)) =>
      match drainF fuel v2 with
      | .error e => .error e
      | .ok rest => .ok (b :: rest)

/-- All bytes the sub-block iterator yields, in order. -/
def LenPrefixRawDataView.drain (v : LenPrefixRawDataView) : Except Fail (List Nat) :=
  drainF (v.remains.length + v.current_block.length + 1) v

/-- The wire encoding of a sub-block chain body: each block is preceded by
its length byte (the terminating `0x00` is appended by the user). -/
def encodeChain (blocks : List (List Nat)) : List Nat :=
  (blocks.map (fun b => b.length :: b)).flatten

theorem drain_go (fuel : Nat) :
    ∀ (blocks : List (List Nat)) (blk : List Nat) (i : Nat) (extra : List Nat),
      (∀ b ∈ blocks, 1 ≤ b.length ∧ b.length ≤ 255) →
      i < blk.length →
      (blk.length - i) + (encodeChain blocks).length + 1 ≤ fuel →
      drainF fuel ⟨encodeChain blocks ++ 0 :: extra, blk, i⟩
        = .ok (blk.drop i ++ blocks.flatten) := by
  induction fuel with
  | zero =>
    intro blocks blk i extra _ _ hf
    omega
  | succ fuel ih =>
    intro blocks blk i extra hb hi hf
    have hblk : blk ≠ [] := by
      intro hnil
      rw [hnil] at hi
      simp at hi
    rw [drainF, LenPrefixRawDataView.next]
    simp only [if_neg hblk]
    have hget : blk[i]? = some blk[i] := List.getElem?_eq_getElem hi
    simp only [hget]
    rw [LenPrefixRawDataView.shift_cursor]
    simp only [if_neg hblk]
    by_cases hlast : i < blk.length - 1
    · rw [if_pos hlast]
      have hrec := ih blocks blk (i + 1) extra hb (by omega) (by omega)
      simp only [Except.map]
      rw [hrec, List.drop_eq_getElem_cons hi]
      rfl
    · rw [if_neg hlast]
      have hieq : i = blk.length - 1 := by omega
      have hdropi : blk.drop i = [blk[i]] := by
        rw [List.drop_eq_getElem_cons hi]
        have : blk.drop (i + 1) = [] := List.drop_eq_nil_of_le (by omega)
        rw [this]
      rw [LenPrefixRawDataView.shift_next_block]
      simp only [if_neg hblk]
      cases blocks with
      | nil =>
        have henc0 : encodeChain ([] : List (List Nat)) ++ 0 :: extra = 0 :: extra := by
          simp [encodeChain]
        rw [henc0]
        obtain ⟨fuel2, rfl⟩ : ∃ f2, fuel = f2 + 1 :=
          ⟨fuel - 1, by simp [encodeChain] at hf; omega⟩
        have hdrain0 : drainF (fuel2 + 1) ⟨[], [], 0⟩ = .ok [] := by
          rw [drainF, LenPrefixRawDataView.next]
          simp
        simp [Except.map, hdrain0, hdropi]
      | cons b1 bs =>
        have hb1 := hb b1 (by simp)
        have henc : encodeChain (b1 :: bs) ++ 0 :: extra
            = b1.length :: (b1 ++ (encodeChain bs ++ 0 :: extra)) := by
          simp [encodeChain]
        rw [henc]
        simp only [if_neg (show ¬ b1.length = 0 by omega)]
        rw [if_pos (show b1.length ≤ (b1 ++ (encodeChain bs ++ 0 :: extra)).length by simp)]
        rw [List.take_left' rfl, List.drop_left' rfl]
        simp only [Except.map]
        have hrec := ih bs b1 0 extra (fun b hm => hb b (by simp [hm])) (by omega)
            (by simp [encodeChain] at hf ⊢; omega)
        rw [hrec]
        simp [hdropi]

/-- C6: the sub-block iterator over a well-formed chain
`len_1 | data_1 | … | len_k | data_k | 0x00` (each `len_i ∈ [1,255]`)
yields exactly `data_1 ++ … ++ data_k` — `Σ len_i` bytes — and then reports
end.  The result, for any trailing bytes `extra`, is independent of
`extra`: the stream never reads past the terminating zero byte.  Once the
end is reached (`current_block = []`), `next` keeps returning end without
touching the state. -/
theorem sub_block_stream_spec (blocks : List (List Nat)) (extra : List Nat)
    (hb : ∀ b ∈ blocks, 1 ≤ b.length ∧ b.length ≤ 255) :
    (∃ v, LenPrefixRawDataView.new (encodeChain blocks ++ 0 :: extra) = .ok v ∧
        v.drain = .ok blocks.flatten) ∧
    blocks.flatten.length = (blocks.map List.length).sum ∧
    (∀ w : LenPrefixRawDataView, w.current_block = [] → w.next = .ok none) := by
  refine ⟨?_, by simp, fun w hw => by rw [LenPrefixRawDataView.next, if_pos hw]⟩
  cases blocks with
  | nil =>
    refine ⟨⟨extra, [], 0⟩, ?_, ?_⟩
    · show LenPrefixRawDataView.new (0 :: extra) = _
      rw [LenPrefixRawDataView.new]
      simp
    · rw [LenPrefixRawDataView.drain, drainF, LenPrefixRawDataView.next]
      simp
  | cons b1 bs =>
    have hb1 := hb b1 (by simp)
    have henc : encodeChain (b1 :: bs) ++ 0 :: extra
        = b1.length :: (b1 ++ (encodeChain bs ++ 0 :: extra)) := by
      simp [encodeChain]
    refine ⟨⟨encodeChain bs ++ 0 :: extra, b1, 0⟩, ?_, ?_⟩
    · rw [henc, LenPrefixRawDataView.new]
      rw [if_pos (by simp)]
      rw [List.take_left' rfl, List.drop_left' rfl]
    · rw [LenPrefixRawDataView.drain]
      have := drain_go ((encodeChain bs ++ 0 :: extra).length + b1.length + 1)
          bs b1 0 extra (fun b hm => hb b (by simp [hm])) (by omega)
          (by simp; omega)
      simpa using this

/-- Witness for `sub_block_stream_spec`: the chain `02 0A 14 01 1E 00` with a
trailing junk byte. -/
theorem sub_block_stream_spec_witness :
    (∀ b ∈ [[10, 20], [30]], 1 ≤ List.length b ∧ List.length b ≤ 255) ∧
    ((∃ v, LenPrefixRawDataView.new (encodeChain [[10, 20], [30]] ++ 0 :: [99]) = .ok v ∧
        v.drain = .ok ([[10, 20], [30]] : List (List Nat)).flatten) ∧
      ([[10, 20], [30]] : List (List Nat)).flatten.length
        = (([[10, 20], [30]] : List (List Nat)).map List.length).sum ∧
      (∀ w : LenPrefixRawDataView, w.current_block = [] → w.next = .ok none)) :=
  ⟨by decide, sub_block_stream_spec [[10, 20], [30]] [99] (by decide)⟩

/-! ## GIF structures and parsers (src/lib.rs) -/

/-- `GraphicControl` from src/lib.rs. -/
structure GraphicControl where
  is_transparent : Bool
  transparent_color_index : Nat
  delay_centis : Nat
deriving DecidableEq, Repr

/-- `ExtensionBlock` from src/lib.rs (payload slices as byte lists). -/
inductive ExtensionBlock where
  | graphicControl (ctrl : GraphicControl)
  | comment (bytes : List Nat)
  | plainText (bytes : List Nat)
  | netscapeApplication (repetitions : Nat)
  | application
  | unknown (label : Nat) (bytes : List Nat)
deriving DecidableEq, Repr

/-- The sub-block skipping loop that appears verbatim in the `0xFF` and
`0xFE` branches of `ExtensionBlock::parse` (src/lib.rs 326-335, 363-373).
Each iteration consumes at least one byte, so `input.length + 1` fuel
always suffices. -/
def skipSubBlocksF (fuel : Nat) (input : List Nat) : Except Fail (List Nat) :=
  match fuel with
  | 0 => .error .panicked
  | fuel + 1 =>
    match take1 input with
    | .error e => .error e
    | .ok (input1, block_size) =>
      if block_size = 0 then .ok input1
      else
        match take_slice input1 block_size with
        | .error e => .error e
        | .ok (input2, _) => skipSubBlocksF fuel input2

/-- Wrapper computing sufficient fuel. -/
def skipSubBlocks (input : List Nat) : Except Fail (List Nat) :=
  skipSubBlocksF (input.length + 1) input

/-- `ExtensionBlock::parse` from src/lib.rs.  The `0xFF` branch first parses
the 11-byte application header; the nested NETSCAPE conditions either
return early or fall through — with the position reset to just after the
application header — into the skip loop (Rust shadowed `input` bindings).
Any label other than `0xFF`/`0xF9`/`0xFE` is `unimplemented!()`: a panic. -/
def ExtensionBlock.parse (input : List Nat) : Except Fail (List Nat × ExtensionBlock) :=
  match take1 input with
  | .error e => .error e
  | .ok (input, ext_label) =>
    if ext_label = 0xff then
      match take1 input with
      | .error e => .error e
      | .ok (input, block_size_1) =>
      match take 8 input with
      | .error e => .error e
      | .ok (input, app_id) =>
      match take 3 input with
      | .error e => .error e
      | .ok (input, app_auth_code) =>
        match (if block_size_1 = 11 ∧ app_id = [78, 69, 84, 83, 67, 65, 80, 69]
              ∧ app_auth_code = [50, 46, 48] then
            match take1 input with
            | .error e => .error e
            | .ok (input1, block_size_2) =>
              if block_size_2 = 3 then
                match take1 input1 with
                | .error e => .error e
                | .ok (input2, always_one) =>
                  if always_one = 1 then
                    match le_u16 input2 with
                    | .error e => .error e
                    | .ok (input3, repetitions) =>
                    match take1 input3 with
                    | .error e => .error e
                    | .ok (input4, eob) =>
                      if eob = 0 then .ok (some (input4, repetitions)) else .ok none
                  else .ok none
              else .ok none
          else (.ok none : Except Fail (Option (List Nat × Nat)))) with
        | .error e => .error e
        | .ok (some (input4, repetitions)) =>
          .ok (input4, .netscapeApplication repetitions)
        | .ok none =>
          match skipSubBlocks input with
          | .error e => .error e
          | .ok input0 => .ok (input0, .application)
    else if ext_label = 0xf9 then
      match take1 input with
      | .error e => .error e
      | .ok (input, block_size) =>
        if block_size ≠ 4 then .error (.err .invalidByte)
        else
          match take1 input with
          | .error e => .error e
          | .ok (input, flags) =>
          match le_u16 input with
          | .error e => .error e
          | .ok (input, delay_centis) =>
          match take1 input with
          | .error e => .error e
          | .ok (input, transparent_color_index) =>
          match take1 input with
          | .error e => .error e
          | .ok (input, block_terminator) =>
            if block_terminator ≠ 0 then .error (.err .invalidByte)
            else
              .ok (input, .graphicControl
                { is_transparent := (flags &&& 1) != 0
                  transparent_color_index := transparent_color_index
                  delay_centis := delay_centis })
    else if ext_label = 0xfe then
      match skipSubBlocks input with
      | .error e => .error e
      | .ok input0 => .ok (input0, .comment (input.drop 1))
    else .error .panicked

/-- `ImageBlock` from src/lib.rs. -/
structure ImageBlock where
  left : Nat
  top : Nat
  width : Nat
  height : Nat
  is_interlaced : Bool
  lzw_min_code_size : Nat
  local_color_table : Option (List Nat)
  image_data : List Nat
deriving DecidableEq, Repr

/-- The sub-block spanning loop of `ImageBlock::parse` (src/lib.rs 265-274):
like the skip loop but also counts `n`, the number of chain bytes
including every length prefix and the terminator. -/
def spanSubBlocksF (fuel : Nat) (input : List Nat) (n : Nat) :
    Except Fail (List Nat × Nat) :=
  match fuel with
  | 0 => .error .panicked
  | fuel + 1 =>
    match take1 input with
    | .error e => .error e
    | .ok (input1, block_size) =>
      if block_size = 0 then .ok (input1, n)
      else
        match take_slice input1 block_size with
        | .error e => .error e
        | .ok (input2, _) => spanSubBlocksF fuel input2 (n + block_size + 1)

/-- `ImageBlock::parse` from src/lib.rs (called after the `0x2C` marker).
`image_data` is the whole sub-block chain including length prefixes and the
terminating zero byte (`&input[..n]`). -/
def ImageBlock.parse (input : List Nat) : Except Fail (List Nat × ImageBlock) :=
  match le_u16 input with
  | .error e => .error e
  | .ok (input, left) =>
  match le_u16 input with
  | .error e => .error e
  | .ok (input, top) =>
  match le_u16 input with
  | .error e => .error e
  | .ok (input, width) =>
  match le_u16 input with
  | .error e => .error e
  | .ok (input, height) =>
  match take1 input with
  | .error e => .error e
  | .ok (input, flags) =>
    let is_interlaced := (flags &&& 0x40) != 0
    let has_local_color_table := (flags &&& 0x80) != 0
    let local_color_table_size := if has_local_color_table then 2 ^ ((flags &&& 7) + 1) else 0
    match (if 0 < local_color_table_size then
        match take_slice input (local_color_table_size * 3) with
        | .error e => .error e
        | .ok (input, table) => .ok (input, some table)
      else (.ok (input, none) : Except Fail (List Nat × Option (List Nat)))) with
    | .error e => .error e
    | .ok (input, local_color_table) =>
    match take1 input with
    | .error e => .error e
    | .ok (input, lzw_min_code_size) =>
    match spanSubBlocksF (input.length + 1) input 1 with
    | .error e => .error e
    | .ok (input0, n) =>
      .ok (input0,
        { left := left, top := top, width := width, height := height
          is_interlaced := is_interlaced
          lzw_min_code_size := lzw_min_code_size
          local_color_table := local_color_table
          image_data := input.take n })

/-- `Segment` from src/lib.rs. -/
inductive Segment where
  | image (block : ImageBlock)
  | extension (ext : ExtensionBlock)
  | trailer
deriving DecidableEq, Repr

/-- `Segment::parse` from src/lib.rs: dispatch on the marker byte.  The
trailer must be the last byte, else `JunkAfterTrailerByte`. -/
def Segment.parse (input : List Nat) : Except Fail (List Nat × Segment) :=
  match take1 input with
  | .error e => .error e
  | .ok (input, ext_magic) =>
    if ext_magic = 0x21 then
      match ExtensionBlock.parse input with
      | .error e => .error e
      | .ok (input, ext) => .ok (input, .extension ext)
    else if ext_magic = 0x2c then
      match ImageBlock.parse input with
      | .error e => .error e
      | .ok (input, image_block) => .ok (input, .image image_block)
    else if ext_magic = 0x3b then
      if input = [] then .ok (input, .trailer)
      else .error (.err .junkAfterTrailerByte)
    else .error (.err .invalidByte)

/-- C8: extension parsing does not skip unrecognized labels: a label other
than `0xFF`/`0xF9`/`0xFE` hits `unimplemented!()` and panics — here label
`0x01` (Plain Text) followed by a well-formed empty sub-block chain, which
per the claim should have been skipped and reported as `Unknown`.  For
contrast, the handled label `0xFE` does skip its chain and returns a
value. -/
theorem extension_unknown_label_panics :
    ExtensionBlock.parse [1, 0] = .error .panicked ∧
    ExtensionBlock.parse [254, 0] = .ok ([], .comment []) := by
  exact ⟨rfl, rfl⟩

/-- `Version` from src/lib.rs. -/
inductive Version where
  | v87a
  | v89a
deriving DecidableEq, Repr

/-- `Header` from src/lib.rs. -/
structure Header where
  version : Version
  width : Nat
  height : Nat
  has_global_color_table : Bool
  color_resolution : Nat
  bg_color_index : Nat
deriving DecidableEq, Repr

/-- `Header::parse` from src/lib.rs: magic, version, logical screen
descriptor, then the optional global color table (raw bytes).  A bad
version reports the magic (the source quirk at src/lib.rs:113). -/
def Header.parse (input : List Nat) :
    Except Fail (List Nat × Header × Option (List Nat)) :=
  match take 3 input with
  | .error e => .error e
  | .ok (input, magic) =>
    if magic ≠ [71, 73, 70] then .error (.err (.invalidFileSignature magic))
    else
      match take 3 input with
      | .error e => .error e
      | .ok (input, ver) =>
        match (if ver = [56, 55, 97] then some Version.v87a
               else if ver = [56, 57, 97] then some Version.v89a
               else none) with
        | none => .error (.err (.invalidFileSignature magic))
        | some version =>
          match le_u16 input with
          | .error e => .error e
          | .ok (input, screen_width) =>
          match le_u16 input with
          | .error e => .error e
          | .ok (input, screen_height) =>
          match take1 input with
          | .error e => .error e
          | .ok (input, flags) =>
            let has_global_color_table := (flags &&& 0x80) != 0
            let global_color_table_size :=
              if has_global_color_table then 2 ^ ((flags &&& 7) + 1) else 0
            let color_resolution := (flags &&& 0x70) >>> 4
            match take1 input with
            | .error e => .error e
            | .ok (input, bg_color_index) =>
            match take1 input with
            | .error e => .error e
            | .ok (input, _pixel_aspect_ratio) =>
            match (if 0 < global_color_table_size then
                match take_slice input (global_color_table_size * 3) with
                | .error e => .error e
                | .ok (input, table) => .ok (input, some table)
              else (.ok (input, none) : Except Fail (List Nat × Option (List Nat)))) with
            | .error e => .error e
            | .ok (input, color_table) =>
              .ok (input,
                { version := version, width := screen_width, height := screen_height
                  has_global_color_table := has_global_color_table
                  color_resolution := color_resolution
                  bg_color_index := bg_color_index },
                color_table)

/-- `ColorTable::get` from src/lib.rs over the raw table bytes: `None` when
`3·index` is past the end, otherwise the packed 24-bit RGB value.  The
`base+1`/`base+2` reads are unguarded (they panic on a table whose length
is not a multiple of 3). -/
def ColorTable.get (data : List Nat) (index : Nat) : Except Fail (Option Nat) :=
  let base := 3 * index
  if data.length ≤ base then .ok none
  else
    match data[base]?, data[base + 1]?, data[base + 2]? with
    | some r, some g, some b => .ok (some (((r <<< 16) ||| (g <<< 8)) ||| b))
    | _, _, _ => .error .panicked

/-- `RawGif` / `Gif::from_slice` from src/lib.rs: the parsed header, the
optional global color table and the tail beginning at the first segment. -/
structure RawGif where
  header : Header
  global_color_table : Option (List Nat)
  image_data : List Nat
deriving DecidableEq, Repr

/-- `Gif::from_slice` (via `RawGif::from_slice`). -/
def Gif.from_slice (input : List Nat) : Except Fail RawGif :=
  match Header.parse input with
  | .error e => .error e
  | .ok (remaining, header, color_table) =>
    .ok { header := header, global_color_table := color_table, image_data := remaining }

/-! Length lemmas: every parser consumes input. -/

theorem skipSubBlocksF_length {fuel : Nat} : ∀ {input rest : List Nat},
    skipSubBlocksF fuel input = .ok rest → rest.length ≤ input.length := by
  induction fuel with
  | zero =>
    intro input rest h
    simp [skipSubBlocksF] at h
  | succ fuel ih =>
    intro input rest h
    rw [skipSubBlocksF] at h
    split at h
    · simp at h
    · rename_i input1 bs heq
      have h1 := take1_length heq
      split at h
      · simp only [Except.ok.injEq] at h
        subst h
        omega
      · split at h
        · simp at h
        · rename_i input2 junk heq2
          have h2 := take_slice_length heq2
          have h3 := ih h
          omega

theorem skipSubBlocks_length {input rest : List Nat}
    (h : skipSubBlocks input = .ok rest) : rest.length ≤ input.length :=
  skipSubBlocksF_length h

theorem spanSubBlocksF_length {fuel : Nat} : ∀ {input rest : List Nat} {n m : Nat},
    spanSubBlocksF fuel input n = .ok (rest, m) → rest.length ≤ input.length := by
  induction fuel with
  | zero =>
    intro input rest n m h
    simp [spanSubBlocksF] at h
  | succ fuel ih =>
    intro input rest n m h
    rw [spanSubBlocksF] at h
    split at h
    · simp at h
    · rename_i input1 bs heq
      have h1 := take1_length heq
      split at h
      · simp only [Except.ok.injEq, Prod.mk.injEq] at h
        obtain ⟨h2, -⟩ := h
        subst h2
        omega
      · split at h
        · simp at h
        · rename_i input2 junk heq2
          have h2 := take_slice_length heq2
          have h3 := ih h
          omega

theorem extension_parse_length {input rest : List Nat} {ext : ExtensionBlock}
    (h : ExtensionBlock.parse input = .ok (rest, ext)) : rest.length < input.length := by
  rw [ExtensionBlock.parse] at h
  split at h
  · simp at h
  · rename_i input' label heq0
    have h0 := take1_length heq0
    split at h
    · -- 0xFF application branch
      split at h
      · simp at h
      · rename_i inputA bs1 heqA
        have hA := take1_length heqA
        split at h
        · simp at h
        · rename_i inputB app_id heqB
          have hB := take_length heqB
          split at h
          · simp at h
          · rename_i inputC auth heqC
            have hC := take_length heqC
            split at h
            · simp at h
            · -- netscape success
              rename_i input4 reps heqN
              simp only [Except.ok.injEq, Prod.mk.injEq] at h
              obtain ⟨h4, -⟩ := h
              subst h4
              -- walk the netscape attempt for the length bound
              split at heqN
              · split at heqN
                · simp at heqN
                · rename_i inputD bs2 heqD
                  have hD := take1_length heqD
                  split at heqN
                  · split at heqN
                    · simp at heqN
                    · rename_i inputE one heqE
                      have hE := take1_length heqE
                      split at heqN
                      · split at heqN
                        · simp at heqN
                        · rename_i inputF reps2 heqF
                          have hF := le_u16_length heqF
                          split at heqN
                          · simp at heqN
                          · rename_i inputG eob heqG
                            have hG := take1_length heqG
                            split at heqN
                            · simp only [Except.ok.injEq, Option.some.injEq,
                                Prod.mk.injEq] at heqN
                              obtain ⟨h5, -⟩ := heqN
                              subst h5
                              omega
                            · simp at heqN
                      · simp at heqN
                  · simp at heqN
              · simp at heqN
            · -- skip branch
              split at h
              · simp at h
              · rename_i input0 heqS
                have hS := skipSubBlocks_length heqS
                simp only [Except.ok.injEq, Prod.mk.injEq] at h
                obtain ⟨h4, -⟩ := h
                subst h4
                omega
    · split at h
      · -- 0xF9 graphic control branch
        split at h
        · simp at h
        · rename_i inputA bs heqA
          have hA := take1_length heqA
          split at h
          · simp at h
          · split at h
            · simp at h
            · rename_i inputB flags heqB
              have hB := take1_length heqB
              split at h
              · simp at h
              · rename_i inputC delay heqC
                have hC := le_u16_length heqC
                split at h
                · simp at h
                · rename_i inputD tci heqD
                  have hD := take1_length heqD
                  split at h
                  · simp at h
                  · rename_i inputE term heqE
                    have hE := take1_length heqE
                    split at h
                    · simp at h
                    · simp only [Except.ok.injEq, Prod.mk.injEq] at h
                      obtain ⟨h4, -⟩ := h
                      subst h4
                      omega
      · split at h
        · -- 0xFE comment branch
          split at h
          · simp at h
          · rename_i input0 heqS
            have hS := skipSubBlocks_length heqS
            simp only [Except.ok.injEq, Prod.mk.injEq] at h
            obtain ⟨h4, -⟩ := h
            subst h4
            omega
        · simp at h

theorem optional_color_table_length {input rest : List Nat} {tbl : Option (List Nat)} {sz : Nat}
    (h : (if 0 < sz then
        match take_slice input (sz * 3) with
        | .error e => .error e
        | .ok (input, table) => .ok (input, some table)
      else (.ok (input, none) : Except Fail (List Nat × Option (List Nat)))) = .ok (rest, tbl)) :
    rest.length ≤ input.length := by
  split at h
  · split at h
    · simp at h
    · rename_i inputX table heqX
      have hX := take_slice_length heqX
      simp only [Except.ok.injEq, Prod.mk.injEq] at h
      obtain ⟨h4, -⟩ := h
      subst h4
      omega
  · simp only [Except.ok.injEq, Prod.mk.injEq] at h
    obtain ⟨h4, -⟩ := h
    subst h4
    omega

theorem image_parse_length {input rest : List Nat} {ib : ImageBlock}
    (h : ImageBlock.parse input = .ok (rest, ib)) : rest.length < input.length := by
  rw [ImageBlock.parse] at h
  split at h
  · simp at h
  · rename_i inputA left heqA
    have hA := le_u16_length heqA
    split at h
    · simp at h
    · rename_i inputB top heqB
      have hB := le_u16_length heqB
      split at h
      · simp at h
      · rename_i inputC width heqC
        have hC := le_u16_length heqC
        split at h
        · simp at h
        · rename_i inputD height heqD
          have hD := le_u16_length heqD
          split at h
          · simp at h
          · rename_i inputE flags heqE
            have hE := take1_length heqE
            simp only [] at h
            split at h
            · simp at h
            · rename_i inputF lct heqF
              have hF : inputF.length ≤ inputE.length := optional_color_table_length heqF
              split at h
              · simp at h
              · rename_i inputG mcs heqG
                have hG := take1_length heqG
                split at h
                · simp at h
                · rename_i inputH n heqH
                  have hH := spanSubBlocksF_length heqH
                  simp only [Except.ok.injEq, Prod.mk.injEq] at h
                  obtain ⟨h4, -⟩ := h
                  subst h4
                  omega

theorem segment_parse_length {input rest : List Nat} {seg : Segment}
    (h : Segment.parse input = .ok (rest, seg)) : rest.length < input.length := by
  rw [Segment.parse] at h
  split at h
  · simp at h
  · rename_i input1 magic heq1
    have h1 := take1_length heq1
    split at h
    · split at h
      · simp at h
      · rename_i input2 ext heq2
        have h2 := extension_parse_length heq2
        simp only [Except.ok.injEq, Prod.mk.injEq] at h
        obtain ⟨h4, -⟩ := h
        subst h4
        omega
    · split at h
      · split at h
        · simp at h
        · rename_i input2 ib heq2
          have h2 := image_parse_length heq2
          simp only [Except.ok.injEq, Prod.mk.injEq] at h
          obtain ⟨h4, -⟩ := h
          subst h4
          omega
      · split at h
        · split at h
          · simp only [Except.ok.injEq, Prod.mk.injEq] at h
            obtain ⟨h4, -⟩ := h
            subst h4
            omega
          · simp at h
        · simp at h

/-! ## Frame iterator (src/lib.rs, `FrameIterator`) -/

/-- Inner look-ahead loop of `FrameIterator::next` (src/lib.rs 486-510):
walk segments from `input` until the next GraphicControl (the remainder
becomes `remain_data`, the position just after the current frame's GCE), or
the trailer / `JunkAfterTrailerByte` (remainder becomes empty).  Any other
parse error is `panic!("unexpected error")`.  Each iteration consumes
input, so `input.length + 1` fuel suffices. -/
def innerScanF (fuel : Nat) (remain_data input : List Nat) : Except Fail (List Nat) :=
  match fuel with
  | 0 => .error .panicked
  | fuel + 1 =>
    match Segment.parse input with
    | .ok (input0, seg) =>
      match seg with
      | .trailer => .ok []
      | .extension (.graphicControl _) => .ok remain_data
      | _ => innerScanF fuel remain_data input0
    | .error (.err .junkAfterTrailerByte) => .ok []
    | .error (.err _) => .error .panicked
    | .error .panicked => .error .panicked

/-- Outer loop of `FrameIterator::next` (src/lib.rs 472-527): skip segments
until a GraphicControl is found — then the inner look-ahead fixes the next
remainder and a frame `(ctrl, raw_data, new_remain)` is yielded — or stop
at the trailer / any parse error (`Segment::parse(input).ok()?`). -/
def outerScanF (fuel : Nat) (input : List Nat) :
    Except Fail (Option (GraphicControl × List Nat × List Nat)) :=
  match fuel with
  | 0 => .error .panicked
  | fuel + 1 =>
    match Segment.parse input with
    | .error .panicked => .error .panicked
    | .error (.err _) => .ok none
    | .ok (input0, seg) =>
      match seg with
      | .trailer => .ok none
      | .extension (.graphicControl ctrl) =>
        match innerScanF (input0.length + 1) input0 input0 with
        | .error e => .error e
        | .ok newRemain => .ok (some (ctrl, input0, newRemain))
      | _ => outerScanF fuel input0

/-- `FrameIterator::next`: `none` when iteration is over, else the captured
GraphicControl, the frame's raw byte range and the new remainder. -/
def frameIterNext (remain : List Nat) :
    Except Fail (Option (GraphicControl × List Nat × List Nat)) :=
  if remain = [] then .ok none
  else outerScanF (remain.length + 1) remain

/-- Drive `FrameIterator` to exhaustion, collecting the GraphicControl of
every yielded frame in order. -/
def framesListF (fuel : Nat) (remain : List Nat) : Except Fail (List GraphicControl) :=
  match fuel with
  | 0 => .error .panicked
  | fuel + 1 =>
    match frameIterNext remain with
    | .error e => .error e
    | .ok none => .ok []
    | .ok (some (ctrl, _frameData, newRemain)) =>
      match framesListF fuel newRemain with
      | .error e => .error e
      | .ok rest => .ok (ctrl :: rest)

/-- The frames `frames()` yields, as their GraphicControl records. -/
def framesList (remain : List Nat) : Except Fail (List GraphicControl) :=
  framesListF (remain.length + 1) remain

/-- Specification-side reading of the byte stream: the list of segments up
to and including the trailer.  This is the "number of GraphicControl
extensions observed in the byte stream" side of the claim, not part of the
iterator. -/
def parseSegmentsF (fuel : Nat) (input : List Nat) : Except Fail (List Segment) :=
  match fuel with
  | 0 => .error .panicked
  | fuel + 1 =>
    match Segment.parse input with
    | .error e => .error e
    | .ok (_, .trailer) => .ok [.trailer]
    | .ok (rest, seg) =>
      match parseSegmentsF fuel rest with
      | .error e => .error e
      | .ok segs => .ok (seg :: segs)

/-- Specification-side: the fully parsed segment stream (valid GIF body =
this succeeds). -/
def parseAllSegments (input : List Nat) : Except Fail (List Segment) :=
  parseSegmentsF (input.length + 1) input

/-- The GraphicControl records appearing in a segment stream, in order. -/
def gceList (segs : List Segment) : List GraphicControl :=
  segs.filterMap (fun s => match s with
    | .extension (.graphicControl c) => some c
    | _ => none)

theorem Segment.parse_nil : Segment.parse [] = .error (.err .unexpectedEndOfFile) := rfl

theorem parse_ne_nil {input rest : List Nat} {seg : Segment}
    (h : Segment.parse input = .ok (rest, seg)) : input ≠ [] := by
  intro hnil
  rw [hnil, Segment.parse_nil] at h
  simp at h

theorem parseSegmentsF_congr {fuel : Nat} : ∀ {input : List Nat} {g : Nat},
    input.length < fuel → input.length < g →
    parseSegmentsF fuel input = parseSegmentsF g input := by
  induction fuel with
  | zero =>
    intro input g hf _
    omega
  | succ fuel ih =>
    intro input g hf hg
    obtain ⟨g2, rfl⟩ : ∃ g2, g = g2 + 1 := ⟨g - 1, by omega⟩
    rw [parseSegmentsF, parseSegmentsF]
    cases hp : Segment.parse input with
    | error e => rfl
    | ok p =>
      obtain ⟨rest, seg⟩ := p
      have hlen := segment_parse_length hp
      cases seg with
      | trailer => rfl
      | image ib => simp only [@ih rest g2 (by omega) (by omega)]
      | extension ext => cases ext <;> simp only [@ih rest g2 (by omega) (by omega)]

theorem innerScanF_cases {fuel : Nat} : ∀ {remain_data input r : List Nat},
    innerScanF fuel remain_data input = .ok r → r = [] ∨ r = remain_data := by
  induction fuel with
  | zero =>
    intro rd input r h
    simp [innerScanF] at h
  | succ fuel ih =>
    intro rd input r h
    rw [innerScanF] at h
    split at h
    · rename_i input0 seg heq
      cases seg with
      | trailer =>
        injection h with h
        exact Or.inl h.symm
      | image ib => exact ih h
      | extension ext =>
        cases ext with
        | graphicControl c =>
          injection h with h
          exact Or.inr h.symm
        | comment b => exact ih h
        | plainText b => exact ih h
        | netscapeApplication n => exact ih h
        | application => exact ih h
        | unknown l b => exact ih h
    · injection h with h
      exact Or.inl h.symm
    · simp at h
    · simp at h

theorem innerScanF_congr {fuel : Nat} : ∀ {remain_data input : List Nat} {g : Nat},
    input.length < fuel → input.length < g →
    innerScanF fuel remain_data input = innerScanF g remain_data input := by
  induction fuel with
  | zero =>
    intro rd input g hf _
    omega
  | succ fuel ih =>
    intro rd input g hf hg
    obtain ⟨g2, rfl⟩ : ∃ g2, g = g2 + 1 := ⟨g - 1, by omega⟩
    rw [innerScanF, innerScanF]
    cases hp : Segment.parse input with
    | error e =>
      cases e with
      | panicked => rfl
      | err pe => cases pe <;> rfl
    | ok p =>
      obtain ⟨input0, seg⟩ := p
      have hlen := segment_parse_length hp
      cases seg with
      | trailer => rfl
      | image ib => simp only [@ih rd input0 g2 (by omega) (by omega)]
      | extension ext => cases ext <;> first | rfl | simp only [@ih rd input0 g2 (by omega) (by omega)]

theorem outerScanF_congr {fuel : Nat} : ∀ {input : List Nat} {g : Nat},
    input.length < fuel → input.length < g →
    outerScanF fuel input = outerScanF g input := by
  induction fuel with
  | zero =>
    intro input g hf _
    omega
  | succ fuel ih =>
    intro input g hf hg
    obtain ⟨g2, rfl⟩ : ∃ g2, g = g2 + 1 := ⟨g - 1, by omega⟩
    rw [outerScanF, outerScanF]
    cases hp : Segment.parse input with
    | error e => cases e <;> rfl
    | ok p =>
      obtain ⟨input0, seg⟩ := p
      have hlen := segment_parse_length hp
      cases seg with
      | trailer => rfl
      | image ib => simp only [@ih input0 g2 (by omega) (by omega)]
      | extension ext => cases ext <;> first | rfl | simp only [@ih input0 g2 (by omega) (by omega)]

theorem outerScanF_some_length {fuel : Nat} :
    ∀ {input newRemain frameData : List Nat} {c : GraphicControl},
    outerScanF fuel input = .ok (some (c, frameData, newRemain)) →
    newRemain.length < input.length := by
  induction fuel with
  | zero =>
    intro input nr fd c h
    simp [outerScanF] at h
  | succ fuel ih =>
    intro input nr fd c h
    rw [outerScanF] at h
    cases hp : Segment.parse input with
    | error e => cases e <;> simp [hp] at h
    | ok p =>
      obtain ⟨input0, seg⟩ := p
      have hlen := segment_parse_length hp
      have hnil := parse_ne_nil hp
      have hpos : 0 < input.length := List.length_pos.mpr hnil
      cases seg with
      | trailer => simp [hp] at h
      | image ib =>
        simp only [hp] at h
        exact lt_trans (ih h) hlen
      | extension ext =>
        cases ext with
        | graphicControl ctrl =>
          simp only [hp] at h
          cases hr : innerScanF (input0.length + 1) input0 input0 with
          | error e => simp [hr] at h
          | ok r =>
            simp only [hr, Except.ok.injEq, Option.some.injEq, Prod.mk.injEq] at h
            obtain ⟨-, -, h3⟩ := h
            subst h3
            rcases innerScanF_cases hr with h4 | h4
            · rw [h4]
              simpa using hpos
            · rw [h4]
              omega
        | comment b =>
          simp only [hp] at h
          exact lt_trans (ih h) hlen
        | plainText b =>
          simp only [hp] at h
          exact lt_trans (ih h) hlen
        | netscapeApplication n =>
          simp only [hp] at h
          exact lt_trans (ih h) hlen
        | application =>
          simp only [hp] at h
          exact lt_trans (ih h) hlen
        | unknown l b =>
          simp only [hp] at h
          exact lt_trans (ih h) hlen

theorem frameIterNext_some_length {remain newRemain frameData : List Nat} {c : GraphicControl}
    (h : frameIterNext remain = .ok (some (c, frameData, newRemain))) :
    newRemain.length < remain.length := by
  rw [frameIterNext] at h
  split at h
  · simp at h
  · exact outerScanF_some_length h

theorem framesListF_congr {fuel : Nat} : ∀ {remain : List Nat} {g : Nat},
    remain.length < fuel → remain.length < g →
    framesListF fuel remain = framesListF g remain := by
  induction fuel with
  | zero =>
    intro remain g hf _
    omega
  | succ fuel ih =>
    intro remain g hf hg
    obtain ⟨g2, rfl⟩ : ∃ g2, g = g2 + 1 := ⟨g - 1, by omega⟩
    rw [framesListF, framesListF]
    cases hp : frameIterNext remain with
    | error e => rfl
    | ok o =>
      cases o with
      | none => rfl
      | some p =>
        obtain ⟨ctrl, fd, nr⟩ := p
        have hlen := frameIterNext_some_length hp
        simp only [@ih nr g2 (by omega) (by omega)]

theorem parseAllSegments_nil :
    parseAllSegments [] = .error (.err .unexpectedEndOfFile) := rfl

theorem parseAllSegments_ne_nil {input : List Nat} {ss : List Segment}
    (h : parseAllSegments input = .ok ss) : input ≠ [] := by
  intro hnil
  rw [hnil, parseAllSegments_nil] at h
  simp at h

/-- On a byte stream that parses cleanly into segments `ss`, the inner
look-ahead of `FrameIterator::next` succeeds and yields `remain_data`
exactly when the remaining stream still contains a GraphicControl, and the
empty remainder otherwise. -/
theorem innerScan_valid {fuel : Nat} : ∀ {input : List Nat} {ss : List Segment} {rd : List Nat},
    input.length < fuel →
    parseAllSegments input = .ok ss →
    innerScanF fuel rd input = .ok (if gceList ss = [] then [] else rd) := by
  induction fuel with
  | zero =>
    intro input ss rd hf _
    omega
  | succ fuel ih =>
    intro input ss rd hf hv
    rw [parseAllSegments, parseSegmentsF] at hv
    rw [innerScanF]
    cases hp : Segment.parse input with
    | error e => simp [hp] at hv
    | ok p =>
      obtain ⟨rest, seg⟩ := p
      have hlen := segment_parse_length hp
      cases seg with
      | trailer =>
        simp only [hp, Except.ok.injEq] at hv
        subst hv
        simp [hp, gceList]
      | image ib =>
        simp only [hp] at hv
        cases hv2 : parseSegmentsF input.length rest with
        | error e => simp [hv2] at hv
        | ok segs =>
          simp only [hv2, Except.ok.injEq] at hv
          subst hv
          have hv3 : parseAllSegments rest = .ok segs := by
            rw [parseAllSegments, ← @parseSegmentsF_congr input.length rest (rest.length + 1) (by omega) (by omega)]
            exact hv2
          have hrec := @ih rest segs rd (by omega) hv3
          simp only [hp]
          rw [hrec]
          simp [gceList]
      | extension ext =>
        cases ext with
        | graphicControl c =>
          simp only [hp] at hv
          cases hv2 : parseSegmentsF input.length rest with
          | error e => simp [hv2] at hv
          | ok segs =>
            simp only [hv2, Except.ok.injEq] at hv
            subst hv
            simp only [hp]
            simp [gceList]
        | comment b =>
          simp only [hp] at hv
          cases hv2 : parseSegmentsF input.length rest with
          | error e => simp [hv2] at hv
          | ok segs =>
            simp only [hv2, Except.ok.injEq] at hv
            subst hv
            have hv3 : parseAllSegments rest = .ok segs := by
              rw [parseAllSegments, ← @parseSegmentsF_congr input.length rest (rest.length + 1) (by omega) (by omega)]
              exact hv2
            have hrec := @ih rest segs rd (by omega) hv3
            simp only [hp]
            rw [hrec]
            simp [gceList]
        | plainText b =>
          simp only [hp] at hv
          cases hv2 : parseSegmentsF input.length rest with
          | error e => simp [hv2] at hv
          | ok segs =>
            simp only [hv2, Except.ok.injEq] at hv
            subst hv
            have hv3 : parseAllSegments rest = .ok segs := by
              rw [parseAllSegments, ← @parseSegmentsF_congr input.length rest (rest.length + 1) (by omega) (by omega)]
              exact hv2
            have hrec := @ih rest segs rd (by omega) hv3
            simp only [hp]
            rw [hrec]
            simp [gceList]
        | netscapeApplication n =>
          simp only [hp] at hv
          cases hv2 : parseSegmentsF input.length rest with
          | error e => simp [hv2] at hv
          | ok segs =>
            simp only [hv2, Except.ok.injEq] at hv
            subst hv
            have hv3 : parseAllSegments rest = .ok segs := by
              rw [parseAllSegments, ← @parseSegmentsF_congr input.length rest (rest.length + 1) (by omega) (by omega)]
              exact hv2
            have hrec := @ih rest segs rd (by omega) hv3
            simp only [hp]
            rw [hrec]
            simp [gceList]
        | application =>
          simp only [hp] at hv
          cases hv2 : parseSegmentsF input.length rest with
          | error e => simp [hv2] at hv
          | ok segs =>
            simp only [hv2, Except.ok.injEq] at hv
            subst hv
            have hv3 : parseAllSegments rest = .ok segs := by
              rw [parseAllSegments, ← @parseSegmentsF_congr input.length rest (rest.length + 1) (by omega) (by omega)]
              exact hv2
            have hrec := @ih rest segs rd (by omega) hv3
            simp only [hp]
            rw [hrec]
            simp [gceList]
        | unknown l b =>
          simp only [hp] at hv
          cases hv2 : parseSegmentsF input.length rest with
          | error e => simp [hv2] at hv
          | ok segs =>
            simp only [hv2, Except.ok.injEq] at hv
            subst hv
            have hv3 : parseAllSegments rest = .ok segs := by
              rw [parseAllSegments, ← @parseSegmentsF_congr input.length rest (rest.length + 1) (by omega) (by omega)]
              exact hv2
            have hrec := @ih rest segs rd (by omega) hv3
            simp only [hp]
            rw [hrec]
            simp [gceList]

/-- On a byte stream that parses cleanly into segments `ss`,
`FrameIterator::next` stops iff the stream holds no more GraphicControl
extensions; otherwise it yields the first GraphicControl and leaves a
remainder that again parses cleanly into the segments carrying the
remaining GraphicControls (or is empty when none remain). -/
theorem frameIterNext_valid {n : Nat} : ∀ {input : List Nat} {ss : List Segment},
    input.length < n →
    parseAllSegments input = .ok ss →
    (gceList ss = [] → frameIterNext input = .ok none) ∧
    (∀ c cs, gceList ss = c :: cs → ∃ fd nr,
       frameIterNext input = .ok (some (c, fd, nr)) ∧
       ((nr = [] ∧ cs = []) ∨ ∃ ss2, parseAllSegments nr = .ok ss2 ∧ gceList ss2 = cs)) := by
  induction n with
  | zero =>
    intro input ss hf _
    omega
  | succ n ih =>
    intro input ss hf hv
    have hnil := parseAllSegments_ne_nil hv
    rw [parseAllSegments, parseSegmentsF] at hv
    have hiter : frameIterNext input = outerScanF (input.length + 1) input := by
      rw [frameIterNext, if_neg hnil]
    rw [hiter, outerScanF]
    cases hp : Segment.parse input with
    | error e => simp [hp] at hv
    | ok p =>
      obtain ⟨rest, seg⟩ := p
      have hlen := segment_parse_length hp
      cases seg with
      | trailer =>
        simp only [hp, Except.ok.injEq] at hv
        subst hv
        constructor
        · intro _
          simp [hp]
        · intro c cs hg
          simp [gceList] at hg
      | image ib =>
        simp only [hp] at hv
        cases hv2 : parseSegmentsF input.length rest with
        | error e => simp [hv2] at hv
        | ok segs =>
          simp only [hv2, Except.ok.injEq] at hv
          subst hv
          have hv3 : parseAllSegments rest = .ok segs := by
            rw [parseAllSegments, ← @parseSegmentsF_congr input.length rest (rest.length + 1) (by omega) (by omega)]
            exact hv2
          have hrnil := parseAllSegments_ne_nil hv3
          have hiter2 : outerScanF input.length rest = frameIterNext rest := by
            rw [frameIterNext, if_neg hrnil]
            exact @outerScanF_congr input.length rest (rest.length + 1) (by omega) (by omega)
          have hgseq : gceList (Segment.image ib :: segs) = gceList segs := by
            simp [gceList]
          obtain ⟨h1, h2⟩ := @ih rest segs (by omega) hv3
          constructor
          · intro hg
            rw [hgseq] at hg
            simp only [hp, hiter2]
            exact h1 hg
          · intro c cs hg
            rw [hgseq] at hg
            obtain ⟨fd, nr, hnext, hrest⟩ := h2 c cs hg
            exact ⟨fd, nr, by simp only [hp, hiter2]; exact hnext, hrest⟩
      | extension ext =>
        cases ext with
        | graphicControl c =>
          simp only [hp] at hv
          cases hv2 : parseSegmentsF input.length rest with
          | error e => simp [hv2] at hv
          | ok segs =>
            simp only [hv2, Except.ok.injEq] at hv
            subst hv
            have hv3 : parseAllSegments rest = .ok segs := by
              rw [parseAllSegments, ← @parseSegmentsF_congr input.length rest (rest.length + 1) (by omega) (by omega)]
              exact hv2
            have hinner := @innerScan_valid (rest.length + 1) rest segs rest (by omega) hv3
            have hgseq : gceList (Segment.extension (ExtensionBlock.graphicControl c) :: segs) =
                c :: gceList segs := by
              simp [gceList]
            constructor
            · intro hg
              rw [hgseq] at hg
              simp at hg
            · intro c2 cs hg
              rw [hgseq] at hg
              obtain ⟨rfl, rfl⟩ : c2 = c ∧ cs = gceList segs := by
                exact ⟨(List.cons.injEq _ _ _ _ ▸ hg).1.symm, (List.cons.injEq _ _ _ _ ▸ hg).2.symm⟩
              refine ⟨rest, if gceList segs = [] then [] else rest, ?_, ?_⟩
              · simp only [hp, hinner]
              · by_cases hcase : gceList segs = []
                · rw [if_pos hcase]
                  exact Or.inl ⟨rfl, hcase⟩
                · rw [if_neg hcase]
                  exact Or.inr ⟨segs, hv3, rfl⟩
        | comment b =>
          simp only [hp] at hv
          cases hv2 : parseSegmentsF input.length rest with
          | error e => simp [hv2] at hv
          | ok segs =>
            simp only [hv2, Except.ok.injEq] at hv
            subst hv
            have hv3 : parseAllSegments rest = .ok segs := by
              rw [parseAllSegments, ← @parseSegmentsF_congr input.length rest (rest.length + 1) (by omega) (by omega)]
              exact hv2
            have hrnil := parseAllSegments_ne_nil hv3
            have hiter2 : outerScanF input.length rest = frameIterNext rest := by
              rw [frameIterNext, if_neg hrnil]
              exact @outerScanF_congr input.length rest (rest.length + 1) (by omega) (by omega)
            have hgseq : gceList (Segment.extension (ExtensionBlock.comment b) :: segs) =
                gceList segs := by
              simp [gceList]
            obtain ⟨h1, h2⟩ := @ih rest segs (by omega) hv3
            constructor
            · intro hg
              rw [hgseq] at hg
              simp only [hp, hiter2]
              exact h1 hg
            · intro c cs hg
              rw [hgseq] at hg
              obtain ⟨fd, nr, hnext, hrest⟩ := h2 c cs hg
              exact ⟨fd, nr, by simp only [hp, hiter2]; exact hnext, hrest⟩
        | plainText b =>
          simp only [hp] at hv
          cases hv2 : parseSegmentsF input.length rest with
          | error e => simp [hv2] at hv
          | ok segs =>
            simp only [hv2, Except.ok.injEq] at hv
            subst hv
            have hv3 : parseAllSegments rest = .ok segs := by
              rw [parseAllSegments, ← @parseSegmentsF_congr input.length rest (rest.length + 1) (by omega) (by omega)]
              exact hv2
            have hrnil := parseAllSegments_ne_nil hv3
            have hiter2 : outerScanF input.length rest = frameIterNext rest := by
              rw [frameIterNext, if_neg hrnil]
              exact @outerScanF_congr input.length rest (rest.length + 1) (by omega) (by omega)
            have hgseq : gceList (Segment.extension (ExtensionBlock.plainText b) :: segs) =
                gceList segs := by
              simp [gceList]
            obtain ⟨h1, h2⟩ := @ih rest segs (by omega) hv3
            constructor
            · intro hg
              rw [hgseq] at hg
              simp only [hp, hiter2]
              exact h1 hg
            · intro c cs hg
              rw [hgseq] at hg
              obtain ⟨fd, nr, hnext, hrest⟩ := h2 c cs hg
              exact ⟨fd, nr, by simp only [hp, hiter2]; exact hnext, hrest⟩
        | netscapeApplication nreps =>
          simp only [hp] at hv
          cases hv2 : parseSegmentsF input.length rest with
          | error e => simp [hv2] at hv
          | ok segs =>
            simp only [hv2, Except.ok.injEq] at hv
            subst hv
            have hv3 : parseAllSegments rest = .ok segs := by
              rw [parseAllSegments, ← @parseSegmentsF_congr input.length rest (rest.length + 1) (by omega) (by omega)]
              exact hv2
            have hrnil := parseAllSegments_ne_nil hv3
            have hiter2 : outerScanF input.length rest = frameIterNext rest := by
              rw [frameIterNext, if_neg hrnil]
              exact @outerScanF_congr input.length rest (rest.length + 1) (by omega) (by omega)
            have hgseq : gceList (Segment.extension (ExtensionBlock.netscapeApplication nreps) :: segs) =
                gceList segs := by
              simp [gceList]
            obtain ⟨h1, h2⟩ := @ih rest segs (by omega) hv3
            constructor
            · intro hg
              rw [hgseq] at hg
              simp only [hp, hiter2]
              exact h1 hg
            · intro c cs hg
              rw [hgseq] at hg
              obtain ⟨fd, nr, hnext, hrest⟩ := h2 c cs hg
              exact ⟨fd, nr, by simp only [hp, hiter2]; exact hnext, hrest⟩
        | application =>
          simp only [hp] at hv
          cases hv2 : parseSegmentsF input.length rest with
          | error e => simp [hv2] at hv
          | ok segs =>
            simp only [hv2, Except.ok.injEq] at hv
            subst hv
            have hv3 : parseAllSegments rest = .ok segs := by
              rw [parseAllSegments, ← @parseSegmentsF_congr input.length rest (rest.length + 1) (by omega) (by omega)]
              exact hv2
            have hrnil := parseAllSegments_ne_nil hv3
            have hiter2 : outerScanF input.length rest = frameIterNext rest := by
              rw [frameIterNext, if_neg hrnil]
              exact @outerScanF_congr input.length rest (rest.length + 1) (by omega) (by omega)
            have hgseq : gceList (Segment.extension ExtensionBlock.application :: segs) =
                gceList segs := by
              simp [gceList]
            obtain ⟨h1, h2⟩ := @ih rest segs (by omega) hv3
            constructor
            · intro hg
              rw [hgseq] at hg
              simp only [hp, hiter2]
              exact h1 hg
            · intro c cs hg
              rw [hgseq] at hg
              obtain ⟨fd, nr, hnext, hrest⟩ := h2 c cs hg
              exact ⟨fd, nr, by simp only [hp, hiter2]; exact hnext, hrest⟩
        | unknown l b =>
          simp only [hp] at hv
          cases hv2 : parseSegmentsF input.length rest with
          | error e => simp [hv2] at hv
          | ok segs =>
            simp only [hv2, Except.ok.injEq] at hv
            subst hv
            have hv3 : parseAllSegments rest = .ok segs := by
              rw [parseAllSegments, ← @parseSegmentsF_congr input.length rest (rest.length + 1) (by omega) (by omega)]
              exact hv2
            have hrnil := parseAllSegments_ne_nil hv3
            have hiter2 : outerScanF input.length rest = frameIterNext rest := by
              rw [frameIterNext, if_neg hrnil]
              exact @outerScanF_congr input.length rest (rest.length + 1) (by omega) (by omega)
            have hgseq : gceList (Segment.extension (ExtensionBlock.unknown l b) :: segs) =
                gceList segs := by
              simp [gceList]
            obtain ⟨h1, h2⟩ := @ih rest segs (by omega) hv3
            constructor
            · intro hg
              rw [hgseq] at hg
              simp only [hp, hiter2]
              exact h1 hg
            · intro c cs hg
              rw [hgseq] at hg
              obtain ⟨fd, nr, hnext, hrest⟩ := h2 c cs hg
              exact ⟨fd, nr, by simp only [hp, hiter2]; exact hnext, hrest⟩

theorem framesListF_nil {f : Nat} (h : 0 < f) : framesListF f [] = .ok [] := by
  obtain ⟨m, rfl⟩ : ∃ m, f = m + 1 := ⟨f - 1, by omega⟩
  rw [framesListF]
  rfl

theorem framesList_valid {n : Nat} : ∀ {input : List Nat} {ss : List Segment},
    input.length < n → parseAllSegments input = .ok ss →
    framesList input = .ok (gceList ss) := by
  induction n with
  | zero =>
    intro input ss hf _
    omega
  | succ n ih =>
    intro input ss hf hv
    rw [framesList, framesListF]
    rcases hg : gceList ss with _ | ⟨c, cs⟩
    · have h1 := (@frameIterNext_valid (input.length + 1) input ss (by omega) hv).1 hg
      simp [h1, hg]
    · obtain ⟨fd, nr, h1, h2⟩ :=
        (@frameIterNext_valid (input.length + 1) input ss (by omega) hv).2 c cs hg
      have hlt := frameIterNext_some_length h1
      have hrec : framesListF input.length nr = .ok cs := by
        rcases h2 with ⟨rfl, rfl⟩ | ⟨ss2, hv2, rfl⟩
        · exact framesListF_nil (by omega)
        · rw [@framesListF_congr input.length nr (nr.length + 1) (by omega) (by omega)]
          exact @ih nr ss2 (by omega) hv2
      simp [h1, hrec, hg]

/-- **C7** (functional_correctness): for every valid GIF byte stream — one
whose segment stream parses cleanly up to the trailer — the frame iterator
yields exactly one frame per GraphicControl extension in the byte stream,
in file order: the GraphicControls of the yielded frames are exactly the
GraphicControl extensions of the segment stream, so in particular
`frames().count()` equals their number. -/
theorem frame_iterator_one_frame_per_gce (input : List Nat) (segs : List Segment)
    (h : parseAllSegments input = .ok segs) :
    framesList input = .ok (gceList segs) :=
  @framesList_valid (input.length + 1) input segs (by omega) h

theorem frame_iterator_one_frame_per_gce_witness :
    parseAllSegments [33, 249, 4, 0, 10, 0, 0, 0, 59] =
      .ok [Segment.extension (.graphicControl ⟨false, 0, 10⟩), .trailer] ∧
    framesList [33, 249, 4, 0, 10, 0, 0, 0, 59] =
      .ok (gceList [Segment.extension (.graphicControl ⟨false, 0, 10⟩), .trailer]) :=
  ⟨rfl, frame_iterator_one_frame_per_gce [33, 249, 4, 0, 10, 0, 0, 0, 59]
    [Segment.extension (.graphicControl ⟨false, 0, 10⟩), .trailer] rfl⟩

/-! ## `Frame::draw` (src/lib.rs, `ImageDrawable for Frame`) -/

/-- The fields of `Frame` that `draw` reads (src/lib.rs 530-540).  Pixels
are modeled as `(x, y, color)` triples in emission order. -/
structure Frame where
  is_transparent : Bool
  transparent_color_index : Nat
  global_color_table : Option (List Nat)
  raw_data : List Nat
deriving DecidableEq, Repr

/-- The per-chunk pixel closure of `Frame::draw` (src/lib.rs 590-602),
iterated over one decoded byte run: `x = left + (idx % width as u32) as
u16`, `y = top + (idx / width) as u16` (u16 adds wrap, `as u16` truncates),
`idx += 1` (u32, wraps), transparent indices are skipped after the
increment, and `color_table.get(color_index).unwrap()` panics on a missing
entry.  `idx % width` with `width = 0` is a division-by-zero panic.
Returns the emitted pixels and the final `idx`. -/
def drawChunk (left top width : Nat) (trans : Option Nat) (ct : List Nat) :
    Nat → List Nat → Except Fail (List (Nat × Nat × Nat) × Nat)
  | idx, [] => .ok ([], idx)
  | idx, color_index :: rest =>
    if width = 0 then .error .panicked
    else
      let x := (left + (idx % width) % 65536) % 65536
      let y := (top + (idx / width) % 65536) % 65536
      let idx2 := (idx + 1) % 4294967296
      if trans = some color_index then
        drawChunk left top width trans ct idx2 rest
      else
        match ColorTable.get ct color_index with
        | .error e => .error e
        | .ok none => .error .panicked
        | .ok (some color) =>
          match drawChunk left top width trans ct idx2 rest with
          | .error e => .error e
          | .ok (pixels, idxF) => .ok ((x, y, color) :: pixels, idxF)

/-- The `while let Ok(Some(decoded)) = decoder.decode_next()` loop of
`Frame::draw` (src/lib.rs 589-603): decode errors end the loop silently
(the `Err` pattern fails the `while let`), panics propagate; each decoded
run goes through the pixel closure with the running `idx`.  Each
successful `decode_next` consumes at least one bit, so
`8 * (stream length) + 2` fuel suffices. -/
def drawLoopF (fuel left top width : Nat) (trans : Option Nat) (ct : List Nat)
    (d : Decoder) (idx : Nat) : Except Fail (List (Nat × Nat × Nat)) :=
  match fuel with
  | 0 => .error .panicked
  | fuel + 1 =>
    match d.decode_next with
    | .error .panicked => .error .panicked
    | .error (.err _) => .ok []
    | .ok (none, _) => .ok []
    | .ok (some decoded, d2) =>
      match drawChunk left top width trans ct idx decoded with
      | .error e => .error e
      | .ok (pixels, idx2) =>
        match drawLoopF fuel left top width trans ct d2 idx2 with
        | .error e => .error e
        | .ok rest => .ok (pixels ++ rest)

/-- The outer segment loop of `Frame::draw` (src/lib.rs 557-610): parse
errors end the `while let` (draw returns `Ok(())`), a GraphicControl
breaks (next frame's data), other segments are skipped, and an image block
is decoded and drawn: `local_color_table.or_else(|| global).unwrap()`
panics when both are absent; the LZW reader is the sub-block view over
`image_data` (drained here into the byte list the iterator yields). -/
def drawSegF (fuel : Nat) (f : Frame) (input : List Nat) :
    Except Fail (List (Nat × Nat × Nat)) :=
  match fuel with
  | 0 => .error .panicked
  | fuel + 1 =>
    match Segment.parse input with
    | .error .panicked => .error .panicked
    | .error (.err _) => .ok []
    | .ok (input0, seg) =>
      match seg with
      | .extension (.graphicControl _) => .ok []
      | .image ib =>
        let trans := if f.is_transparent then some f.transparent_color_index else none
        match (match ib.local_color_table with
               | some t => some t
               | none => f.global_color_table) with
        | none => .error .panicked
        | some ct =>
          match LenPrefixRawDataView.new ib.image_data with
          | .error e => .error e
          | .ok v =>
            match v.drain with
            | .error e => .error e
            | .ok bytes =>
              match drawLoopF (8 * bytes.length + 2) ib.left ib.top ib.width trans ct
                  (Decoder.new bytes ib.lzw_min_code_size) 0 with
              | .error e => .error e
              | .ok pixels =>
                match drawSegF fuel f input0 with
                | .error e => .error e
                | .ok rest => .ok (pixels ++ rest)
      | _ => drawSegF fuel f input0

/-- `Frame::draw`: the pixels pushed to the draw target, in order, or the
panic the Rust code would hit. -/
def Frame.draw (f : Frame) : Except Fail (List (Nat × Nat × Nat)) :=
  drawSegF (f.raw_data.length + 1) f f.raw_data

/-- Specification-side pixel enumeration (the spec's words, with exact
arithmetic): consecutive `idx`, `x = left + idx mod width`,
`y = top + idx div width`, transparent indices skipped, colors looked up
in the table — row-major, left-to-right, top-to-bottom. -/
def chunkPixelsSpec (left top width : Nat) (trans : Option Nat) (ct : List Nat) :
    Nat → List Nat → List (Nat × Nat × Nat)
  | _, [] => []
  | idx, color_index :: rest =>
    if trans = some color_index then chunkPixelsSpec left top width trans ct (idx + 1) rest
    else
      match ColorTable.get ct color_index with
      | .ok (some color) =>
        (left + idx % width, top + idx / width, color) ::
          chunkPixelsSpec left top width trans ct (idx + 1) rest
      | _ => chunkPixelsSpec left top width trans ct (idx + 1) rest

/-- **C9** (functional_correctness, corrected): the pixel closure does
enumerate consecutive `idx` with `x = left + idx % width`,
`y = top + idx / width` (row-major), and the emitted coordinates satisfy
`left ≤ x < left + width` and `top ≤ y < top + height` — but only under
the amendments that the frame geometry does not wrap the u16 coordinates
(`left + width ≤ 65536`, `top + height ≤ 65536`) and that at most
`width * height` pixels are decoded.  The claim as stated is false: the
driver never bounds `idx` by `width * height`, so an LZW stream decoding
more pixels than the image area emits `y ≥ top + height` (see the
counterexample theorem on a concrete frame). -/
theorem draw_pixel_coords_spec {left top width height : Nat} {trans : Option Nat}
    {ct : List Nat} (hw : 0 < width) (hxw : left + width ≤ 65536)
    (hyh : top + height ≤ 65536) :
    ∀ {bytes : List Nat} {idx : Nat} {pixels : List (Nat × Nat × Nat)} {idxF : Nat},
    idx + bytes.length ≤ width * height →
    drawChunk left top width trans ct idx bytes = .ok (pixels, idxF) →
    pixels = chunkPixelsSpec left top width trans ct idx bytes ∧
    ∀ p ∈ pixels, left ≤ p.1 ∧ p.1 < left + width ∧ top ≤ p.2.1 ∧ p.2.1 < top + height := by
  intro bytes
  induction bytes with
  | nil =>
    intro idx pixels idxF hb hok
    rw [drawChunk] at hok
    simp only [Except.ok.injEq, Prod.mk.injEq] at hok
    obtain ⟨h1, -⟩ := hok
    subst h1
    exact ⟨rfl, by simp⟩
  | cons ci rest ih =>
    intro idx pixels idxF hb hok
    simp only [List.length_cons] at hb
    have hwle : width ≤ 65536 := by omega
    have hhle : height ≤ 65536 := by omega
    have hidx : idx < width * height := by omega
    have hmod : idx % width < width := Nat.mod_lt _ hw
    have hdiv : idx / width < height := by
      rw [Nat.div_lt_iff_lt_mul hw]
      calc idx < width * height := hidx
      _ = height * width := Nat.mul_comm _ _
    have hx1 : (idx % width) % 65536 = idx % width := Nat.mod_eq_of_lt (by omega)
    have hx2 : (left + idx % width) % 65536 = left + idx % width := Nat.mod_eq_of_lt (by omega)
    have hy1 : (idx / width) % 65536 = idx / width := Nat.mod_eq_of_lt (by omega)
    have hy2 : (top + idx / width) % 65536 = top + idx / width := Nat.mod_eq_of_lt (by omega)
    have hsplit : (idx + 1) % 4294967296 = idx + 1 ∨ rest = [] := by
      by_cases hcap : idx + 1 < 4294967296
      · exact Or.inl (Nat.mod_eq_of_lt hcap)
      · right
        have hwh : width * height ≤ 4294967296 :=
          le_trans (Nat.mul_le_mul hwle hhle) (by norm_num)
        exact List.length_eq_zero.mp (by omega)
    have hrec_eq : ∀ pix iF,
        drawChunk left top width trans ct ((idx + 1) % 4294967296) rest = .ok (pix, iF) →
        pix = chunkPixelsSpec left top width trans ct (idx + 1) rest ∧
        ∀ p ∈ pix, left ≤ p.1 ∧ p.1 < left + width ∧ top ≤ p.2.1 ∧ p.2.1 < top + height := by
      rcases hsplit with heq | rfl
      · rw [heq]
        intro pix iF h
        exact ih (by omega) h
      · intro pix iF h
        have hnil : drawChunk left top width trans ct ((idx + 1) % 4294967296) ([] : List Nat) =
            .ok ([], (idx + 1) % 4294967296) := rfl
        rw [hnil] at h
        simp only [Except.ok.injEq, Prod.mk.injEq] at h
        obtain ⟨h1, -⟩ := h
        subst h1
        exact ⟨rfl, by simp⟩
    rw [drawChunk] at hok
    rw [if_neg (by omega : ¬ width = 0)] at hok
    simp only [] at hok
    by_cases htr : trans = some ci
    · rw [if_pos htr] at hok
      obtain ⟨h1, h2⟩ := hrec_eq _ _ hok
      rw [chunkPixelsSpec, if_pos htr]
      exact ⟨h1, h2⟩
    · rw [if_neg htr] at hok
      rw [chunkPixelsSpec, if_neg htr]
      cases hct : ColorTable.get ct ci with
      | error e => simp [hct] at hok
      | ok o =>
        cases o with
        | none => simp [hct] at hok
        | some color =>
          simp only [hct] at hok
          cases hrec : drawChunk left top width trans ct ((idx + 1) % 4294967296) rest with
          | error e => simp [hrec] at hok
          | ok pr =>
            obtain ⟨pixels2, idxF2⟩ := pr
            simp only [hrec, Except.ok.injEq, Prod.mk.injEq] at hok
            obtain ⟨h1, -⟩ := hok
            subst h1
            obtain ⟨h3, h4⟩ := hrec_eq _ _ hrec
            constructor
            · simp only [hct]
              rw [hx1, hx2, hy1, hy2, h3]
            · intro p hp
              rcases List.mem_cons.1 hp with rfl | hp2
              · rw [hx1, hx2, hy1, hy2]
                refine ⟨?_, ?_, ?_, ?_⟩
                · show left ≤ left + idx % width
                  omega
                · show left + idx % width < left + width
                  omega
                · show top ≤ top + idx / width
                  omega
                · show top + idx / width < top + height
                  omega
              · exact h4 p hp2

theorem draw_pixel_coords_spec_witness :
    drawChunk 0 0 2 none [7, 8, 9, 1, 2, 3] 0 [0, 1, 0] =
      .ok ([(0, 0, 460809), (1, 0, 66051), (0, 1, 460809)], 3) ∧
    ([(0, 0, 460809), (1, 0, 66051), (0, 1, 460809)] : List (Nat × Nat × Nat)) =
      chunkPixelsSpec 0 0 2 none [7, 8, 9, 1, 2, 3] 0 [0, 1, 0] ∧
    ∀ p ∈ ([(0, 0, 460809), (1, 0, 66051), (0, 1, 460809)] : List (Nat × Nat × Nat)),
      0 ≤ p.1 ∧ p.1 < 0 + 2 ∧ 0 ≤ p.2.1 ∧ p.2.1 < 0 + 2 := by
  have h := @draw_pixel_coords_spec 0 0 2 2 none [7, 8, 9, 1, 2, 3]
    (by decide) (by decide) (by decide)
    [0, 1, 0] 0 [(0, 0, 460809), (1, 0, 66051), (0, 1, 460809)] 3 (by decide) (by decide)
  exact ⟨by decide, h.1, h.2⟩

/-- Counterexample to C9's bounds clause as stated: the frame below holds a
single 1×1 image block (`width = 1`, `height = 1`, `top = 0`, parsed in
the first conjunct) whose LZW stream decodes four pixels, and the draw
driver emits them at `y = 0, 1, 2, 3` — three of them outside
`top + height = 1`. -/
theorem draw_coordinate_bounds_cex :
    Segment.parse [44, 0, 0, 0, 0, 1, 0, 1, 0, 0, 2, 2, 4, 0, 0, 59] =
      .ok ([59], .image ⟨0, 0, 1, 1, false, 2, none, [2, 4, 0, 0]⟩) ∧
    Frame.draw ⟨false, 0, some [7, 8, 9], [44, 0, 0, 0, 0, 1, 0, 1, 0, 0, 2, 2, 4, 0, 0, 59]⟩ =
      .ok [(0, 0, 460809), (0, 1, 460809), (0, 2, 460809), (0, 3, 460809)] ∧
    ¬ (∀ p ∈ ([(0, 0, 460809), (0, 1, 460809), (0, 2, 460809), (0, 3, 460809)] :
        List (Nat × Nat × Nat)), p.2.1 < 0 + 1) := by
  refine ⟨rfl, rfl, ?_⟩
  decide

/-- **C10** (safety): `Frame::draw` panics (it does not return an error)
when an image block has no local color table and the GIF no global one
(`local_color_table.or_else(global).unwrap()` on `None`), and when a
decoded palette index has no entry in the selected table
(`color_table.get(color_index).unwrap()` on `None`) — here a
single-entry global table with the LZW stream emitting index 1. -/
theorem draw_missing_color_table_panics :
    Frame.draw ⟨false, 0, none, [44, 0, 0, 0, 0, 1, 0, 1, 0, 0, 2, 2, 4, 0, 0, 59]⟩ =
      .error .panicked ∧
    Frame.draw ⟨false, 0, some [7, 8, 9], [44, 0, 0, 0, 0, 1, 0, 1, 0, 0, 2, 1, 12, 0, 59]⟩ =
      .error .panicked :=
  ⟨rfl, rfl⟩

end Tinygif
